import Mathlib

/-!
Verification of the development-flow phase engine and its project store
(thinking-in-kiro). The definitions below are a shallow embedding of the
TypeScript sources:

* data model: src/types/index.ts (DevelopmentPhase, Task, ProjectState,
  DevelopmentFlowError, DevelopmentFlowResult);
* utilities: src/utils/index.ts (InputValidator.sanitizeText,
  InputValidator.validateStringArray, InputValidator.validateTaskId,
  ErrorFormatter.validationError);
* phase handlers: src/server/DevelopmentFlowServer.ts and its validated
  variant (handleRequirement, handleStatus, handleTaskComplete,
  handleFinish);
* store: src/server/StateManager.ts (saveProjectState, loadProjectState,
  projectExists, createBackup, cleanupOldBackups, restoreProjectState).

Modelling conventions:
* JavaScript strings are Lean String values; .trim / .slice are modelled on
  the character list (ASCII-faithful).
* The single mutable session field (this.currentProject) is passed in and
  returned explicitly; calls to stateManager.saveProjectState are recorded
  in a write log, so "nothing was persisted" is the log being empty.
* Timestamps the code obtains from the ambient clock (formatTimestamp,
  new Date().toISOString()) are passed as explicit parameters.
* Fields of Task that no embedded operation ever reads (status, assignee,
  actualHours, createdAt, updatedAt of the task) are carried verbatim as
  strings/numbers for fidelity.
-/

namespace DevFlow

/-- The phase enum of src/types/index.ts. -/
inductive DevelopmentPhase where
  | init
  | requirement
  | confirmation
  | design
  | todo
  | task_complete
  | status
  | finish
deriving DecidableEq, Repr

/-- Task entity (src/types/index.ts).  Enum-valued fields (status, priority)
are carried as strings; optional numeric fields as Option Nat. -/
structure Task where
  id : String
  title : String
  description : String
  status : String
  priority : String
  assignee : Option String
  estimatedHours : Option Nat
  actualHours : Option Nat
  dependencies : Option (List String)
  createdAt : String
  updatedAt : String
deriving DecidableEq, Repr

/-- ProjectState (src/types/index.ts).  Optional fields are Option-valued,
mirroring the TypeScript question-mark fields. -/
structure ProjectState where
  id : String
  name : String
  phase : DevelopmentPhase
  createdAt : String
  updatedAt : String
  description : Option String
  requirements : Option (List String)
  functionalRequirements : Option (List String)
  technicalRequirements : Option (List String)
  acceptanceCriteria : Option (List String)
  architecture : Option String
  implementation : Option String
  systemDesign : Option String
  dataStructures : Option String
  interfaces : Option String
  deployment : Option String
  tasks : Option (List Task)
  completedTasks : Option (List String)
deriving DecidableEq, Repr

/-- DevelopmentFlowError (src/types/index.ts): message, machine-readable
code, optional phase and project id. -/
structure DevelopmentFlowError where
  message : String
  code : String
  phase : Option DevelopmentPhase
  projectId : Option String
deriving DecidableEq, Repr

/-- Projection of a pending task reported by handleStatus
(id/title/description/priority). -/
structure PendingTaskView where
  id : String
  title : String
  description : String
  priority : String
deriving DecidableEq, Repr

/-- Projection of a completed task reported by handleStatus
(id/title/description). -/
structure CompletedTaskView where
  id : String
  title : String
  description : String
deriving DecidableEq, Repr

/-- The statusInfo object built by handleStatus. -/
structure StatusInfo where
  projectId : String
  projectName : String
  currentPhase : DevelopmentPhase
  totalTasks : Nat
  completedTasksCount : Nat
  pendingTasksCount : Nat
  completionRate : Nat
  pendingTasks : List PendingTaskView
  completedTasks : List CompletedTaskView
deriving DecidableEq, Repr

/-- DevelopmentFlowResult (src/types/index.ts); the data field is only ever
populated by handleStatus, so it is typed as Option StatusInfo here. -/
structure DevelopmentFlowResult where
  success : Bool
  message : String
  data : Option StatusInfo
  projectId : Option String
  phase : Option DevelopmentPhase
  nextSteps : List String
deriving DecidableEq, Repr

instance exceptDecEq {ε α : Type} [DecidableEq ε] [DecidableEq α] :
    DecidableEq (Except ε α) := fun x y =>
  match x, y with
  | .ok a, .ok b =>
    if h : a = b then isTrue (by rw [h]) else isFalse (by intro he; cases he; exact h rfl)
  | .ok _, .error _ => isFalse (by intro he; cases he)
  | .error _, .ok _ => isFalse (by intro he; cases he)
  | .error a, .error b =>
    if h : a = b then isTrue (by rw [h]) else isFalse (by intro he; cases he; exact h rfl)

/-- Outcome of one phase-handler call: the in-memory active record after the
call (this.currentProject), the write log of records passed to
stateManager.saveProjectState, and the returned result or thrown error. -/
structure HandlerOut where
  current : Option ProjectState
  persisted : List ProjectState
  outcome : Except DevelopmentFlowError DevelopmentFlowResult
deriving DecidableEq, Repr

/-! ## Utility functions (src/utils/index.ts) -/

/-- The HTML-entity replacement of InputValidator.sanitizeText applied to a
single character (as the character list of the replacement). -/
def escapeChar (c : Char) : List Char :=
  if c = '<' then "&lt;".data
  else if c = '>' then "&gt;".data
  else if c = Char.ofNat 34 then "&quot;".data
  else if c = Char.ofNat 39 then "&#x27;".data
  else if c = '&' then "&amp;".data
  else [c]

/-- JavaScript String.prototype.trim on the character list: drop whitespace
from both ends. -/
def jsTrim (l : List Char) : List Char :=
  ((l.dropWhile Char.isWhitespace).reverse.dropWhile Char.isWhitespace).reverse

/-- InputValidator.sanitizeText: trim, truncate to maxLength, then escape
the characters in the set with HTML entities. -/
def sanitizeText (text : String) (maxLength : Nat) : String :=
  String.mk (((jsTrim text.data).take maxLength).flatMap escapeChar)

/-- InputValidator.validateStringArray.  The array-shape and item-type
checks of the dynamically typed source cannot fail on a List String, so the
remaining checks are the item-count bound and per-item non-emptiness. -/
def validateStringArray (arr : List String) (fieldName : String) (maxItems : Nat) : List String :=
  (if maxItems < arr.length then
    [fieldName ++ " cannot exceed " ++ toString maxItems ++ " items"]
  else []) ++
  arr.enum.filterMap (fun p =>
    if (jsTrim p.2.data).isEmpty then
      some (fieldName ++ "[" ++ toString p.1 ++ "] cannot be empty")
    else none)

/-- Character class of the task-id format regex. -/
def isTaskIdChar (c : Char) : Bool :=
  c.isAlphanum || c = '_' || c = '-'

/-- InputValidator.validateTaskId: required, characters restricted to
letters/digits/hyphen/underscore, at most 50 characters. -/
def validateTaskId (taskId : String) : List String :=
  if taskId = "" then ["Task ID is required"]
  else
    (if !(taskId.data.all isTaskIdChar) then
      ["Task ID can only contain letters, numbers, hyphens, and underscores"]
    else []) ++
    (if 50 < taskId.length then ["Task ID cannot exceed 50 characters"] else [])

/-- ErrorFormatter.validationError: aggregates field errors into one
DevelopmentFlowError with the stable code VALIDATION_ERROR. -/
def validationError (errors : List String) (phase : Option DevelopmentPhase) :
    DevelopmentFlowError :=
  ⟨"Validation failed: " ++ String.intercalate ", " errors, "VALIDATION_ERROR", phase, none⟩

/-- The NO_CURRENT_PROJECT error every handler throws without an active
record. -/
def noCurrentProjectError : DevelopmentFlowError :=
  ⟨"Please initialize project first", "NO_CURRENT_PROJECT", none, none⟩

/-- Math.round for a non-negative rational: floor of x + 1/2 (the JavaScript
rounding used for the completion percentage). -/
def mathRound (q : ℚ) : ℕ :=
  ⌊q + 1 / 2⌋₊

/-! ## Phase handlers -/

/-- handleStatus (src/server/DevelopmentFlowServer.ts): a pure read that
computes task counts, the completion percentage and next-step guidance. -/
def handleStatus (cur : Option ProjectState) : HandlerOut :=
  match cur with
  | none => ⟨none, [], .error noCurrentProjectError⟩
  | some proj =>
    let tasks := proj.tasks.getD []
    let completedTaskIds := proj.completedTasks.getD []
    let pendingTasks := tasks.filter (fun t => !(completedTaskIds.contains t.id))
    let completedTasks := tasks.filter (fun t => completedTaskIds.contains t.id)
    let statusInfo : StatusInfo :=
      { projectId := proj.id
        projectName := proj.name
        currentPhase := proj.phase
        totalTasks := tasks.length
        completedTasksCount := completedTasks.length
        pendingTasksCount := pendingTasks.length
        completionRate :=
          if 0 < tasks.length then
            mathRound ((completedTasks.length : ℚ) / (tasks.length : ℚ) * 100)
          else 0
        pendingTasks := pendingTasks.map (fun t => ⟨t.id, t.title, t.description, t.priority⟩)
        completedTasks := completedTasks.map (fun t => ⟨t.id, t.title, t.description⟩) }
    ⟨some proj, [],
      .ok { success := true
            message := "Project \"" ++ proj.name ++ "\" status information"
            data := some statusInfo
            projectId := some proj.id
            phase := some DevelopmentPhase.status
            nextSteps :=
              if 0 < pendingTasks.length then
                ["Complete remaining tasks (action: task_complete)", "View task details"]
              else
                ["All tasks completed, can finish project (action: finish)"] }⟩

/-- handleTaskComplete (src/server/DevelopmentFlowServer.ts): append the
task id to completedTasks unless already present; no existence check in
this variant.  A missing or empty taskId is falsy in the source guard. -/
def handleTaskComplete (cur : Option ProjectState) (taskId : Option String) (ts : String) :
    HandlerOut :=
  match cur with
  | none => ⟨none, [], .error noCurrentProjectError⟩
  | some proj =>
    match taskId with
    | none => ⟨some proj, [], .error ⟨"Please provide task ID", "MISSING_TASK_ID", none, none⟩⟩
    | some tid =>
      if tid = "" then
        ⟨some proj, [], .error ⟨"Please provide task ID", "MISSING_TASK_ID", none, none⟩⟩
      else
        let completed := proj.completedTasks.getD []
        let completed' := if completed.contains tid then completed else completed ++ [tid]
        let p' : ProjectState :=
          { proj with
            completedTasks := some completed'
            phase := DevelopmentPhase.task_complete
            updatedAt := ts }
        ⟨some p', [p'],
          .ok { success := true
                message := "Task " ++ tid ++ " completed"
                data := none
                projectId := some proj.id
                phase := some DevelopmentPhase.task_complete
                nextSteps := ["Continue executing other tasks or complete project (action: finish)"] }⟩

/-- handleTaskComplete in the validated server variant: the task id is first
format-validated and sanitized, and when the record carries a task list the
id must match one of the tasks. -/
def handleTaskCompleteValidated (cur : Option ProjectState) (taskId : Option String)
    (ts : String) : HandlerOut :=
  match cur with
  | none => ⟨none, [], .error noCurrentProjectError⟩
  | some proj =>
    let raw := taskId.getD ""
    let taskIdErrors := validateTaskId raw
    if taskIdErrors ≠ [] then
      ⟨some proj, [], .error (validationError taskIdErrors (some DevelopmentPhase.task_complete))⟩
    else
      let sanitized := sanitizeText raw 50
      let missing :=
        match proj.tasks with
        | some l => !(l.any (fun t => t.id == sanitized))
        | none => false
      if missing then
        ⟨some proj, [],
          .error ⟨"Task ID '" ++ sanitized ++ "' does not exist in project", "TASK_NOT_FOUND",
                  some DevelopmentPhase.task_complete, some proj.id⟩⟩
      else
        let completed := proj.completedTasks.getD []
        let completed' := if completed.contains sanitized then completed else completed ++ [sanitized]
        let p' : ProjectState :=
          { proj with
            completedTasks := some completed'
            phase := DevelopmentPhase.task_complete
            updatedAt := ts }
        ⟨some p', [p'],
          .ok { success := true
                message := "Task " ++ sanitized ++ " completed"
                data := none
                projectId := some proj.id
                phase := some DevelopmentPhase.task_complete
                nextSteps := ["Continue executing other tasks or complete project (action: finish)"] }⟩

/-- The detail lines of the INCOMPLETE_TASKS error message as the source
builds them: filter the tasks down to the uncompleted ids and render each
as a bullet line. -/
def pendingTaskDetailLines (tasks : List Task) (completedTaskIds : List String) : List String :=
  let allTaskIds := tasks.map (fun t => t.id)
  let uncompletedTasks := allTaskIds.filter (fun tid => !(completedTaskIds.contains tid))
  (tasks.filter (fun t => uncompletedTasks.contains t.id)).map
    (fun t => "- " ++ t.id ++ ": " ++ t.title)

/-- The full INCOMPLETE_TASKS message around the detail lines. -/
def incompleteTasksMessage (details : String) : String :=
  "Please complete all tasks first. Remaining incomplete tasks:\n" ++ details ++
  "\n\nSolutions:\n1. Use action: \"task_complete\" to complete tasks one by one\n2. Use action: \"status\" to view detailed status\n3. Use force: true to force complete project"

/-- handleFinish (src/server/DevelopmentFlowServer.ts): unless force is set,
refuse to finish while some task id is missing from completedTasks; on
success persist the finished record and clear the active project. -/
def handleFinish (cur : Option ProjectState) (force : Bool) (ts : String) : HandlerOut :=
  match cur with
  | none => ⟨none, [], .error noCurrentProjectError⟩
  | some proj =>
    let finished : ProjectState :=
      { proj with phase := DevelopmentPhase.finish, updatedAt := ts }
    let okOut : HandlerOut :=
      ⟨none, [finished],
        .ok { success := true
              message := "Project \"" ++ proj.name ++ "\" completed"
              data := none
              projectId := some proj.id
              phase := some DevelopmentPhase.finish
              nextSteps := ["Project completed"] }⟩
    let doCheck := !force && (match proj.tasks with
      | some l => decide (0 < l.length)
      | none => false)
    if doCheck then
      let tasks := proj.tasks.getD []
      let completedTaskIds := proj.completedTasks.getD []
      let allTaskIds := tasks.map (fun t => t.id)
      let uncompletedTasks := allTaskIds.filter (fun tid => !(completedTaskIds.contains tid))
      if uncompletedTasks ≠ [] then
        ⟨some proj, [],
          .error ⟨incompleteTasksMessage
                    (String.intercalate "\n" (pendingTaskDetailLines tasks completedTaskIds)),
                  "INCOMPLETE_TASKS", none, none⟩⟩
      else okOut
    else okOut

/-- Input bag of the requirement phase (the fields handleRequirement
reads). -/
structure RequirementInput where
  description : Option String
  requirements : Option (List String)
  functionalRequirements : Option (List String)
  technicalRequirements : Option (List String)
  acceptanceCriteria : Option (List String)
deriving DecidableEq, Repr

/-- One validation step of the validated handleRequirement: validate the
provided array; assign the sanitized items when the field is individually
valid, otherwise accumulate the field errors. -/
def requirementStep (errs : List String) (proj : ProjectState)
    (field : Option (List String)) (fieldName : String)
    (assign : ProjectState → List String → ProjectState) :
    List String × ProjectState :=
  match field with
  | none => (errs, proj)
  | some arr =>
    let es := validateStringArray arr fieldName 50
    if es ≠ [] then (errs ++ es, proj)
    else (errs, assign proj (arr.map (fun x => sanitizeText x 500)))

/-- The body of the validated handleRequirement up to the aggregated-error
check: sanitize the description, then run the four validation/assignment
steps in source order, threading the accumulated errors and the mutated
record. -/
def requirementApply (proj : ProjectState) (input : RequirementInput) :
    List String × ProjectState :=
  let p1 :=
    match input.description with
    | some d => { proj with description := some (sanitizeText d 2000) }
    | none => proj
  let s2 := requirementStep [] p1 input.requirements "requirements"
    (fun p l => { p with requirements := some l })
  let s3 := requirementStep s2.1 s2.2 input.functionalRequirements "functionalRequirements"
    (fun p l => { p with functionalRequirements := some l })
  let s4 := requirementStep s3.1 s3.2 input.technicalRequirements "technicalRequirements"
    (fun p l => { p with technicalRequirements := some l })
  requirementStep s4.1 s4.2 input.acceptanceCriteria "acceptanceCriteria"
    (fun p l => { p with acceptanceCriteria := some l })

/-- handleRequirement in the validated server variant: sanitize the
description, validate each provided array independently (assigning the
sanitized items of individually valid fields as it goes), then either throw
one aggregated ValidationError or advance the phase and persist. -/
def handleRequirementValidated (cur : Option ProjectState) (input : RequirementInput)
    (ts : String) : HandlerOut :=
  match cur with
  | none => ⟨none, [], .error noCurrentProjectError⟩
  | some proj =>
    let s := requirementApply proj input
    if s.1 ≠ [] then
      ⟨some s.2, [], .error (validationError s.1 (some DevelopmentPhase.requirement))⟩
    else
      let p' : ProjectState :=
        { s.2 with phase := DevelopmentPhase.requirement, updatedAt := ts }
      ⟨some p', [p'],
        .ok { success := true
              message := "Requirement analysis completed"
              data := none
              projectId := some proj.id
              phase := some DevelopmentPhase.requirement
              nextSteps := ["Wait for user to confirm requirements (action: confirmation)"] }⟩

/-! ## Helper lemmas -/

theorem mathRound_ratio (c t : ℕ) (ht : 0 < t) :
    mathRound ((c : ℚ) / (t : ℚ) * 100) = (200 * c + t) / (2 * t) := by
  unfold mathRound
  have ht' : (t : ℚ) ≠ 0 := Nat.cast_ne_zero.mpr ht.ne'
  have h : (c : ℚ) / (t : ℚ) * 100 + 1 / 2 = ((200 * c + t : ℕ) : ℚ) / ((2 * t : ℕ) : ℚ) := by
    push_cast
    field_simp
    ring
  rw [h, Nat.floor_div_nat, Nat.floor_natCast]

theorem filter_not_length (cs : List String) (l : List Task) :
    (l.filter fun t => !(cs.contains t.id)).length =
      l.length - (l.filter fun t => cs.contains t.id).length := by
  have h := List.length_eq_length_filter_add (l := l) (fun t => cs.contains t.id)
  have h2 : (l.filter (fun t => !(cs.contains t.id))).length =
      (l.filter (!(fun t => cs.contains t.id) ·)).length := rfl
  omega

theorem rate_eq (c t : Nat) :
    (if 0 < t then mathRound ((c : ℚ) / (t : ℚ) * 100) else 0) =
      (if 0 < t then (200 * c + t) / (2 * t) else 0) := by
  by_cases h : 0 < t
  · rw [if_pos h, if_pos h, mathRound_ratio c t h]
  · rw [if_neg h, if_neg h]

theorem ite_lists_iff (n : Nat) (A B : List String) (hAB : A ≠ B) :
    ((if 0 < n then A else B) = A ↔ 0 < n) ∧ ((if 0 < n then A else B) = B ↔ n = 0) := by
  by_cases h : 0 < n
  · rw [if_pos h]
    constructor
    · exact ⟨fun _ => h, fun _ => rfl⟩
    · exact ⟨fun hab => absurd hab hAB, fun hn => absurd h (by omega)⟩
  · rw [if_neg h]
    constructor
    · exact ⟨fun hba => absurd hba.symm hAB, fun hp => absurd hp h⟩
    · exact ⟨fun _ => by omega, fun _ => rfl⟩

theorem uncompleted_ne_nil_iff (l : List Task) (cs : List String) :
    ((l.map fun t => t.id).filter (fun tid => !(cs.contains tid)) ≠ []) ↔
      ∃ t ∈ l, !(cs.contains t.id) := by
  rw [Ne, List.filter_eq_nil_iff]
  simp only [List.mem_map, not_forall]
  constructor
  · rintro ⟨x, ⟨⟨t, ht, rfl⟩, hx⟩⟩
    exact ⟨t, ht, by simpa using hx⟩
  · rintro ⟨t, ht, hx⟩
    exact ⟨t.id, ⟨⟨t, ht, rfl⟩, by simpa using hx⟩⟩

theorem pendingTaskDetailLines_eq (tasks : List Task) (cs : List String) :
    pendingTaskDetailLines tasks cs =
      (tasks.filter fun t => !(cs.contains t.id)).map
        (fun t => "- " ++ t.id ++ ": " ++ t.title) := by
  simp only [pendingTaskDetailLines]
  congr 1
  apply List.filter_congr
  intro t ht
  have hmem : t.id ∈ tasks.map (fun t => t.id) := List.mem_map.mpr ⟨t, ht, rfl⟩
  by_cases hmemcs : t.id ∈ cs
  · have h1 : cs.contains t.id = true := by
      simpa [List.contains, List.elem_eq_mem] using hmemcs
    have h2 : ((tasks.map fun t => t.id).filter fun tid => !(cs.contains tid)).contains t.id
        = false := by
      simp [List.contains, List.elem_eq_mem, List.mem_filter, hmemcs]
    rw [h1, h2]
    rfl
  · have h1 : cs.contains t.id = false := by
      simpa [List.contains, List.elem_eq_mem] using hmemcs
    have h2 : ((tasks.map fun t => t.id).filter fun tid => !(cs.contains tid)).contains t.id
        = true := by
      simp [List.contains, List.elem_eq_mem, List.mem_filter, hmemcs, hmem]
    rw [h1, h2]
    rfl

theorem contains_append_self (l : List String) (a : String) :
    (l ++ [a]).contains a = true := by
  simp [List.contains, List.elem_eq_mem]

/-! ## Claim theorems: phase handlers -/

/-- C8: status is a pure read (active record unchanged, nothing persisted)
reporting totalTasks, completedTasksCount as the number of tasks whose id is
in completedTasks, pendingTasksCount = totalTasks - completedTasksCount,
completionRate = round(completed/total*100) with 0 for an empty task list,
and next-step guidance that distinguishes pending tasks remaining from
ready-to-finish. -/
theorem status_pure_and_counts (proj : ProjectState) :
    (handleStatus (some proj)).current = some proj ∧
    (handleStatus (some proj)).persisted = [] ∧
    ∃ r info,
      (handleStatus (some proj)).outcome = .ok r ∧
      r.data = some info ∧
      info.totalTasks = (proj.tasks.getD []).length ∧
      info.completedTasksCount =
        ((proj.tasks.getD []).filter
          (fun t => (proj.completedTasks.getD []).contains t.id)).length ∧
      info.pendingTasksCount = info.totalTasks - info.completedTasksCount ∧
      info.completionRate =
        (if 0 < (proj.tasks.getD []).length then
          (200 * info.completedTasksCount + (proj.tasks.getD []).length) /
            (2 * (proj.tasks.getD []).length)
        else 0) ∧
      (r.nextSteps = ["Complete remaining tasks (action: task_complete)", "View task details"]
        ↔ 0 < info.pendingTasksCount) ∧
      (r.nextSteps = ["All tasks completed, can finish project (action: finish)"]
        ↔ info.pendingTasksCount = 0) := by
  refine ⟨rfl, rfl, _, _, rfl, rfl, rfl, rfl,
    filter_not_length (proj.completedTasks.getD []) (proj.tasks.getD []), ?_, ?_, ?_⟩
  · exact rate_eq _ _
  · exact (ite_lists_iff _ _ _ (by decide)).1
  · exact (ite_lists_iff _ _ _ (by decide)).2

/-- C1: with an active record, finish without force fails if and only if
some task id in tasks is absent from completedTasks; the failure carries
code INCOMPLETE_TASKS and lists the offending task ids and titles; with
force it always succeeds (persisting the finished record and clearing the
active project). -/
theorem finish_fails_iff_incomplete (proj : ProjectState) (force : Bool) (ts : String) :
    ((∃ e, (handleFinish (some proj) force ts).outcome = .error e) ↔
      (force = false ∧
        ∃ t ∈ proj.tasks.getD [], !((proj.completedTasks.getD []).contains t.id))) ∧
    (∀ e, (handleFinish (some proj) force ts).outcome = .error e →
      e.code = "INCOMPLETE_TASKS" ∧
      e.message = incompleteTasksMessage (String.intercalate "\n"
        (((proj.tasks.getD []).filter
            (fun t => !((proj.completedTasks.getD []).contains t.id))).map
          (fun t => "- " ++ t.id ++ ": " ++ t.title)))) ∧
    (force = true →
      (handleFinish (some proj) force ts).outcome =
        .ok { success := true
              message := "Project \"" ++ proj.name ++ "\" completed"
              data := none
              projectId := some proj.id
              phase := some DevelopmentPhase.finish
              nextSteps := ["Project completed"] } ∧
      (handleFinish (some proj) force ts).current = none ∧
      (handleFinish (some proj) force ts).persisted =
        [{ proj with phase := DevelopmentPhase.finish, updatedAt := ts }]) := by
  rcases htk : proj.tasks with _ | l
  · cases force <;>
      simp [handleFinish, htk]
  · cases force
    · by_cases hl : l = []
      · subst hl
        simp [handleFinish, htk]
      · have hlen : (0 < l.length) := List.length_pos.mpr hl
        by_cases hx : ∃ t ∈ l, t.id ∉ proj.completedTasks.getD []
        · simp [handleFinish, htk, hlen, hx, pendingTaskDetailLines_eq]
        · simp [handleFinish, htk, hlen, hx]
    · simp [handleFinish, htk]

/-- C9: task_complete is idempotent on completedTasks: for any accepted
taskId, a second invocation leaves completedTasks exactly as after the
first, and the append-only-if-absent update never introduces duplicates. -/
theorem taskComplete_idempotent (proj : ProjectState) (tid ts1 ts2 : String) (h : tid ≠ "") :
    ∃ p1 p2,
      (handleTaskComplete (some proj) (some tid) ts1).current = some p1 ∧
      (handleTaskComplete (some p1) (some tid) ts2).current = some p2 ∧
      p2.completedTasks = p1.completedTasks ∧
      ((proj.completedTasks.getD []).Nodup → (p1.completedTasks.getD []).Nodup) := by
  set c := proj.completedTasks.getD [] with hc
  set c' := (if c.contains tid then c else c ++ [tid]) with hc'
  set p1 : ProjectState :=
    { proj with
      completedTasks := some c'
      phase := DevelopmentPhase.task_complete
      updatedAt := ts1 } with hp1
  have hfirst : (handleTaskComplete (some proj) (some tid) ts1).current = some p1 := by
    simp only [handleTaskComplete]
    rw [if_neg h]
  have hcontains : c'.contains tid = true := by
    rw [hc']
    by_cases hcc : c.contains tid
    · rw [if_pos hcc]
      exact hcc
    · rw [if_neg hcc]
      exact contains_append_self _ _
  have hsecond : (handleTaskComplete (some p1) (some tid) ts2).current =
      some { p1 with
             completedTasks := some c'
             phase := DevelopmentPhase.task_complete
             updatedAt := ts2 } := by
    have hmemc : tid ∈ c' := by
      simpa [List.contains, List.elem_eq_mem] using hcontains
    simp only [handleTaskComplete]
    rw [if_neg h]
    simp [hp1, hcontains, hmemc]
  refine ⟨p1, _, hfirst, hsecond, rfl, ?_⟩
  intro hnod
  show c'.Nodup
  rw [hc']
  by_cases hcc : c.contains tid
  · rw [if_pos hcc]
    exact hnod
  · rw [if_neg hcc]
    have hni : tid ∉ c := by
      intro hm
      exact hcc (by simpa [List.contains, List.elem_eq_mem] using hm)
    simp [List.nodup_append, hnod, hni]

/-! ## Sanitization is the identity on format-valid task ids -/

theorem validateTaskId_nil (tid : String) (h : validateTaskId tid = []) :
    tid ≠ "" ∧ tid.data.all isTaskIdChar = true ∧ tid.length ≤ 50 := by
  by_cases h0 : tid = ""
  · rw [validateTaskId, if_pos h0] at h
    simp at h
  · rw [validateTaskId, if_neg h0, List.append_eq_nil] at h
    obtain ⟨ha, hb⟩ := h
    refine ⟨h0, ?_, ?_⟩
    · cases hx : tid.data.all isTaskIdChar
      · rw [hx] at ha
        simp at ha
      · rfl
    · by_cases hlen : 50 < tid.length
      · rw [if_pos hlen] at hb
        simp at hb
      · omega

theorem escapeChar_eq_self (c : Char) (h : isTaskIdChar c = true) : escapeChar c = [c] := by
  have n1 : ¬ c = '<' := fun hc => absurd h (by rw [hc]; decide)
  have n2 : ¬ c = '>' := fun hc => absurd h (by rw [hc]; decide)
  have n3 : ¬ c = Char.ofNat 34 := fun hc => absurd h (by rw [hc]; decide)
  have n4 : ¬ c = Char.ofNat 39 := fun hc => absurd h (by rw [hc]; decide)
  have n5 : ¬ c = '&' := fun hc => absurd h (by rw [hc]; decide)
  simp [escapeChar, n1, n2, n3, n4, n5]

theorem not_ws_of_taskIdChar (c : Char) (h : isTaskIdChar c = true) :
    c.isWhitespace = false := by
  cases hw : c.isWhitespace
  · rfl
  · exfalso
    have hw' : c = ' ' ∨ c = '\t' ∨ c = '\x0d' ∨ c = '\n' := by
      simpa [Char.isWhitespace, or_assoc] using hw
    rcases hw' with h1 | h1 | h1 | h1 <;> subst h1 <;> exact absurd h (by decide)

theorem dropWhile_ws_eq_self (l : List Char) (h : ∀ c ∈ l, Char.isWhitespace c = false) :
    l.dropWhile Char.isWhitespace = l := by
  cases l with
  | nil => rfl
  | cons a t =>
    exact List.dropWhile_cons_of_neg (by simp [h a (List.mem_cons_self a t)])

theorem jsTrim_eq_self (l : List Char) (h : ∀ c ∈ l, Char.isWhitespace c = false) :
    jsTrim l = l := by
  unfold jsTrim
  rw [dropWhile_ws_eq_self l h,
    dropWhile_ws_eq_self _ (fun c hc => h c (List.mem_reverse.mp hc)),
    List.reverse_reverse]

theorem flatMap_escape_eq_self (l : List Char) (h : ∀ c ∈ l, isTaskIdChar c = true) :
    l.flatMap escapeChar = l := by
  induction l with
  | nil => rfl
  | cons a t ih =>
    rw [List.flatMap_cons, escapeChar_eq_self a (h a (List.mem_cons_self a t)),
      ih (fun c hc => h c (List.mem_cons_of_mem a hc))]
    rfl

theorem sanitizeText_eq_self (tid : String) (hvalid : validateTaskId tid = []) :
    sanitizeText tid 50 = tid := by
  obtain ⟨h0, hall, hlen⟩ := validateTaskId_nil tid hvalid
  have hch : ∀ c ∈ tid.data, isTaskIdChar c = true := fun c hc =>
    (List.all_eq_true.mp hall) c hc
  have hws : ∀ c ∈ tid.data, Char.isWhitespace c = false := fun c hc =>
    not_ws_of_taskIdChar c (hch c hc)
  unfold sanitizeText
  rw [jsTrim_eq_self _ hws, List.take_of_length_le hlen, flatMap_escape_eq_self _ hch]

/-! ## Sample data shared by concrete instantiations -/

/-- A task value with the given id and title; the remaining fields take
neutral values. -/
def sampleTask (i ttl : String) : Task :=
  ⟨i, ttl, "", "pending", "medium", none, none, none, none, "T0", "T0"⟩

/-- A bare project record with no optional content. -/
def baseProject : ProjectState :=
  ⟨"p1", "Demo", DevelopmentPhase.todo, "T0", "T0", none, none, none, none, none,
   none, none, none, none, none, none, none, none⟩

/-- baseProject with a single pending task t1. -/
def projTasks1 : ProjectState :=
  { baseProject with tasks := some [sampleTask "t1" "First"] }

/-! ## Claim theorems: validated task_complete -/

/-- C5 (amended): with an active record carrying a non-empty task list, a
format-valid taskId that matches no task id makes the validated
task_complete handler fail with TASK_NOT_FOUND, leaving the record and the
store untouched.  (An ill-formed taskId instead fails earlier with the
aggregated VALIDATION_ERROR; see the counterexample.) -/
theorem taskCompleteValidated_not_found (proj : ProjectState) (l : List Task)
    (tid ts : String) (htasks : proj.tasks = some l) (hne : l ≠ [])
    (hvalid : validateTaskId tid = [])
    (hmiss : ∀ t ∈ l, t.id ≠ tid) :
    (handleTaskCompleteValidated (some proj) (some tid) ts).outcome =
      .error ⟨"Task ID '" ++ tid ++ "' does not exist in project", "TASK_NOT_FOUND",
              some DevelopmentPhase.task_complete, some proj.id⟩ ∧
    (handleTaskCompleteValidated (some proj) (some tid) ts).current = some proj ∧
    (handleTaskCompleteValidated (some proj) (some tid) ts).persisted = [] := by
  have hs : sanitizeText tid 50 = tid := sanitizeText_eq_self tid hvalid
  have hmiss2 : (l.any fun t => t.id == tid) = false := by
    simp only [List.any_eq_false]
    intro t ht
    simpa using hmiss t ht
  simp only [handleTaskCompleteValidated, Option.getD_some, htasks, hvalid, hs]
  rw [hmiss2]
  exact ⟨rfl, rfl, rfl⟩

/-- C5 witness: concrete application of the amended theorem. -/
theorem taskCompleteValidated_not_found_witness :
    (projTasks1.tasks = some [sampleTask "t1" "First"] ∧
      [sampleTask "t1" "First"] ≠ ([] : List Task) ∧
      validateTaskId "t9" = [] ∧
      ∀ t ∈ [sampleTask "t1" "First"], t.id ≠ "t9") ∧
    (handleTaskCompleteValidated (some projTasks1) (some "t9") "T1").outcome =
      .error ⟨"Task ID '" ++ "t9" ++ "' does not exist in project", "TASK_NOT_FOUND",
              some DevelopmentPhase.task_complete, some projTasks1.id⟩ :=
  ⟨⟨by decide, by decide, by decide, by decide⟩,
    (taskCompleteValidated_not_found projTasks1 [sampleTask "t1" "First"] "t9" "T1"
      (by decide) (by decide) (by decide) (by decide)).1⟩

/-- C5 counterexample to the claim as stated: with a non-empty task list and
a supplied taskId ("a b") matching no task, the call does not fail with
TaskNotFoundError; it fails earlier with the format-validation error
(code VALIDATION_ERROR). -/
theorem taskCompleteValidated_claim_counterexample :
    (projTasks1.tasks.getD [] ≠ [] ∧
      ∀ t ∈ projTasks1.tasks.getD [], t.id ≠ "a b") ∧
    (handleTaskCompleteValidated (some projTasks1) (some "a b") "T1").outcome =
      .error (validationError
        ["Task ID can only contain letters, numbers, hyphens, and underscores"]
        (some DevelopmentPhase.task_complete)) ∧
    (validationError
        ["Task ID can only contain letters, numbers, hyphens, and underscores"]
        (some DevelopmentPhase.task_complete)).code = "VALIDATION_ERROR" ∧
    "VALIDATION_ERROR" ≠ "TASK_NOT_FOUND" := by
  decide

/-! ## Claim theorems: validated requirement phase -/

/-- The validation errors contributed by one optional array field. -/
def optFieldErrors (field : Option (List String)) (fieldName : String) : List String :=
  match field with
  | some a => validateStringArray a fieldName 50
  | none => []

/-- All validation errors of a requirement call, in handler order. -/
def requirementInputErrors (input : RequirementInput) : List String :=
  optFieldErrors input.requirements "requirements" ++
  optFieldErrors input.functionalRequirements "functionalRequirements" ++
  optFieldErrors input.technicalRequirements "technicalRequirements" ++
  optFieldErrors input.acceptanceCriteria "acceptanceCriteria"

/-- The per-field description of the in-memory mutation the validated
requirement handler performs before its aggregated-error check: the
description is sanitized and assigned whenever provided, and each provided
array field is assigned (sanitized) exactly when it is individually valid. -/
def requirementPartialUpdate (proj : ProjectState) (input : RequirementInput) : ProjectState :=
  { proj with
    description :=
      match input.description with
      | some d => some (sanitizeText d 2000)
      | none => proj.description
    requirements :=
      match input.requirements with
      | some a =>
        if validateStringArray a "requirements" 50 = [] then
          some (a.map (fun x => sanitizeText x 500))
        else proj.requirements
      | none => proj.requirements
    functionalRequirements :=
      match input.functionalRequirements with
      | some a =>
        if validateStringArray a "functionalRequirements" 50 = [] then
          some (a.map (fun x => sanitizeText x 500))
        else proj.functionalRequirements
      | none => proj.functionalRequirements
    technicalRequirements :=
      match input.technicalRequirements with
      | some a =>
        if validateStringArray a "technicalRequirements" 50 = [] then
          some (a.map (fun x => sanitizeText x 500))
        else proj.technicalRequirements
      | none => proj.technicalRequirements
    acceptanceCriteria :=
      match input.acceptanceCriteria with
      | some a =>
        if validateStringArray a "acceptanceCriteria" 50 = [] then
          some (a.map (fun x => sanitizeText x 500))
        else proj.acceptanceCriteria
      | none => proj.acceptanceCriteria }

theorem requirementStep_fst (errs : List String) (proj : ProjectState)
    (field : Option (List String)) (name : String)
    (assign : ProjectState → List String → ProjectState) :
    (requirementStep errs proj field name assign).1 = errs ++ optFieldErrors field name := by
  cases field with
  | none => simp [requirementStep, optFieldErrors]
  | some a =>
    by_cases h : validateStringArray a name 50 = []
    · simp [requirementStep, optFieldErrors, h]
    · simp [requirementStep, optFieldErrors, h]

theorem requirementApply_fst (proj : ProjectState) (input : RequirementInput) :
    (requirementApply proj input).1 = requirementInputErrors input := by
  simp only [requirementApply, requirementStep_fst, requirementInputErrors,
    List.nil_append, List.append_assoc]

theorem requirementStep_snd (errs : List String) (proj : ProjectState)
    (field : Option (List String)) (name : String)
    (assign : ProjectState → List String → ProjectState) :
    (requirementStep errs proj field name assign).2 =
      (match field with
      | some a =>
        if validateStringArray a name 50 = [] then
          assign proj (a.map (fun x => sanitizeText x 500))
        else proj
      | none => proj) := by
  cases field with
  | none => rfl
  | some a =>
    by_cases h : validateStringArray a name 50 = []
    · simp [requirementStep, h]
    · simp [requirementStep, h]

set_option maxHeartbeats 2000000 in
theorem requirementApply_snd (proj : ProjectState) (input : RequirementInput) :
    (requirementApply proj input).2 = requirementPartialUpdate proj input := by
  obtain ⟨d, r, f, t2, a⟩ := input
  simp only [requirementApply, requirementStep_snd, requirementPartialUpdate]
  cases d <;> cases r <;> cases f <;> cases t2 <;> cases a <;>
    simp only [] <;> split_ifs <;> rfl

/-- C4 (amended): each provided array field is independently validated
(non-empty strings, bounded item count); if any provided field fails
validation the entire call fails with the single aggregated
VALIDATION_ERROR and nothing is persisted; per-item length is not
validated — over-long items are truncated by sanitization instead (see the
counterexample). -/
theorem requirement_aggregated_validation (proj : ProjectState) (input : RequirementInput)
    (ts : String) :
    ((∃ e, (handleRequirementValidated (some proj) input ts).outcome = .error e) ↔
      requirementInputErrors input ≠ []) ∧
    (∀ e, (handleRequirementValidated (some proj) input ts).outcome = .error e →
      e = validationError (requirementInputErrors input)
        (some DevelopmentPhase.requirement) ∧
      (handleRequirementValidated (some proj) input ts).persisted = []) ∧
    (requirementInputErrors input = [] →
      ∃ p', (handleRequirementValidated (some proj) input ts).persisted = [p'] ∧
        (handleRequirementValidated (some proj) input ts).current = some p') := by
  by_cases herr : requirementInputErrors input = []
  · simp [handleRequirementValidated, requirementApply_fst, herr]
  · simp [handleRequirementValidated, requirementApply_fst, herr]

/-- C4 witness: a call whose requirements field has an empty item fails
with the aggregated validation error and persists nothing. -/
theorem requirement_aggregated_validation_witness :
    (requirementInputErrors ⟨some "d", some [""], some ["ok"], none, none⟩ ≠ []) ∧
    ∃ e, (handleRequirementValidated (some baseProject)
        ⟨some "d", some [""], some ["ok"], none, none⟩ "T1").outcome = .error e ∧
      e = validationError
        (requirementInputErrors ⟨some "d", some [""], some ["ok"], none, none⟩)
        (some DevelopmentPhase.requirement) ∧
      (handleRequirementValidated (some baseProject)
        ⟨some "d", some [""], some ["ok"], none, none⟩ "T1").persisted = [] := by
  have h := requirement_aggregated_validation baseProject
    ⟨some "d", some [""], some ["ok"], none, none⟩ "T1"
  have hne : requirementInputErrors ⟨some "d", some [""], some ["ok"], none, none⟩ ≠ [] := by
    decide
  obtain ⟨e, he⟩ := h.1.mpr hne
  exact ⟨hne, e, he, (h.2.1 e he).1, (h.2.1 e he).2⟩

/-- The 501-character item used to exhibit that item length is not
validated. -/
def longItem : String := String.mk (List.replicate 501 'a')

set_option maxRecDepth 8000 in
/-- C4 counterexample to the claim as stated: an array item of 501
characters passes validation (the call succeeds and persists); the item is
truncated to 500 characters by sanitization rather than rejected. -/
theorem requirement_item_length_counterexample :
    longItem.length = 501 ∧
    (handleRequirementValidated (some baseProject)
      ⟨none, some [longItem], none, none, none⟩ "T1").outcome.isOk = true ∧
    ((handleRequirementValidated (some baseProject)
      ⟨none, some [longItem], none, none, none⟩ "T1").current.map
        (fun p => p.requirements)) =
      some (some [String.mk (List.replicate 500 'a')]) := by
  refine ⟨by decide, ?_, ?_⟩ <;> rfl

/-- C10: when the validated requirement call fails validation, nothing is
persisted, but the in-memory active record is already partially mutated:
the sanitized description and every individually valid provided array field
have been assigned; phase and updatedAt are untouched. -/
theorem requirement_failure_partial_mutation (proj : ProjectState)
    (input : RequirementInput) (ts : String) (e : DevelopmentFlowError)
    (h : (handleRequirementValidated (some proj) input ts).outcome = .error e) :
    (handleRequirementValidated (some proj) input ts).persisted = [] ∧
    (handleRequirementValidated (some proj) input ts).current =
      some (requirementPartialUpdate proj input) ∧
    (requirementPartialUpdate proj input).phase = proj.phase ∧
    (requirementPartialUpdate proj input).updatedAt = proj.updatedAt := by
  by_cases herr : requirementInputErrors input = []
  · exfalso
    simp [handleRequirementValidated, requirementApply_fst, herr] at h
  · refine ⟨?_, ?_, rfl, rfl⟩ <;>
      simp [handleRequirementValidated, requirementApply_fst, requirementApply_snd, herr]

/-- C10 witness: with one invalid and one valid array field, the failed
call leaves the store untouched while the in-memory record carries the
sanitized description and the valid field. -/
theorem requirement_failure_partial_mutation_witness :
    ((handleRequirementValidated (some baseProject)
        ⟨some " d<x ", some [""], some ["ok"], none, none⟩ "T1").outcome =
      .error (validationError ["requirements[0] cannot be empty"]
        (some DevelopmentPhase.requirement))) ∧
    (handleRequirementValidated (some baseProject)
        ⟨some " d<x ", some [""], some ["ok"], none, none⟩ "T1").persisted = [] ∧
    (handleRequirementValidated (some baseProject)
        ⟨some " d<x ", some [""], some ["ok"], none, none⟩ "T1").current =
      some (requirementPartialUpdate baseProject
        ⟨some " d<x ", some [""], some ["ok"], none, none⟩) ∧
    (requirementPartialUpdate baseProject
        ⟨some " d<x ", some [""], some ["ok"], none, none⟩).description =
      some "d&lt;x" ∧
    (requirementPartialUpdate baseProject
        ⟨some " d<x ", some [""], some ["ok"], none, none⟩).functionalRequirements =
      some ["ok"] ∧
    (requirementPartialUpdate baseProject
        ⟨some " d<x ", some [""], some ["ok"], none, none⟩).requirements = none := by
  have h := requirement_failure_partial_mutation baseProject
    ⟨some " d<x ", some [""], some ["ok"], none, none⟩ "T1"
    (validationError ["requirements[0] cannot be empty"]
      (some DevelopmentPhase.requirement)) (by decide)
  exact ⟨by decide, h.1, h.2.1, by decide, by decide, by decide⟩

/-- C1 witness: a project with one pending task and no completions fails a
force-less finish with INCOMPLETE_TASKS. -/
theorem finish_fails_iff_incomplete_witness :
    ∃ e, (handleFinish (some projTasks1) false "T1").outcome = .error e ∧
      e.code = "INCOMPLETE_TASKS" := by
  have h := finish_fails_iff_incomplete projTasks1 false "T1"
  obtain ⟨e, he⟩ := h.1.mpr ⟨rfl, sampleTask "t1" "First", by decide, by decide⟩
  exact ⟨e, he, (h.2.1 e he).1⟩

/-- C9 witness: completing task t1 twice on the bare project yields the same
completedTasks as completing it once. -/
theorem taskComplete_idempotent_witness :
    ("t1" : String) ≠ "" ∧
    ∃ p1 p2,
      (handleTaskComplete (some baseProject) (some "t1") "T1").current = some p1 ∧
      (handleTaskComplete (some p1) (some "t1") "T2").current = some p2 ∧
      p2.completedTasks = p1.completedTasks ∧
      ((baseProject.completedTasks.getD []).Nodup → (p1.completedTasks.getD []).Nodup) :=
  ⟨by decide, taskComplete_idempotent baseProject "t1" "T1" "T2" (by decide)⟩

/-! ## The project store (src/server/StateManager.ts)

The filesystem is modelled as a finite map from paths to files; a path is
its list of segments (path.join concatenates segments).  Because fs.readdir
throws when the directory does not exist, existing directories are tracked
explicitly.  File contents are modelled at the JSON level: a file holds
either a serialized ProjectState, a serialized index, or unparseable bytes
(readJsonFile returns null for the latter and for missing files).  Each
file records the mtime fs.stat would report, driven by an explicit clock
parameter. -/

abbrev FsPath := List String

/-- What a stored file deserializes to. -/
inductive FileContent where
  | projFile (p : ProjectState)
  | indexFile (m : List (String × FsPath))
  | corrupt
deriving DecidableEq, Repr

/-- A file on disk: its JSON-level content and its modification time. -/
structure MFile where
  content : FileContent
  mtime : Nat
deriving DecidableEq, Repr

/-- The StateManager state: the state directory, the set of existing
directories, the files on disk, the in-memory projectsIndex map, and the
autoBackup configuration flag. -/
structure Store where
  stateDir : FsPath
  dirs : List FsPath
  files : List (FsPath × MFile)
  projectsIndex : List (String × FsPath)
  autoBackup : Bool
deriving DecidableEq, Repr

/-! Association-list operations with JavaScript Map semantics: set replaces
in place, delete removes the key. -/

def lookupA {α β : Type} [DecidableEq α] : List (α × β) → α → Option β
  | [], _ => none
  | (k, v) :: t, k' => if k = k' then some v else lookupA t k'

def setA {α β : Type} [DecidableEq α] : List (α × β) → α → β → List (α × β)
  | [], k, v => [(k, v)]
  | (k0, v0) :: t, k, v => if k0 = k then (k, v) :: t else (k0, v0) :: setA t k v

def eraseA {α β : Type} [DecidableEq α] (l : List (α × β)) (k : α) : List (α × β) :=
  l.filter (fun kv => decide (kv.1 ≠ k))

/-! Paths used by the StateManager. -/

def recordPath (s : Store) (projectId : String) : FsPath :=
  s.stateDir ++ [projectId ++ ".json"]

def indexFilePath (s : Store) : FsPath :=
  s.stateDir ++ ["projects.json"]

def backupDirPath (s : Store) : FsPath :=
  s.stateDir ++ ["backups"]

def backupFilePath (s : Store) (name : String) : FsPath :=
  s.stateDir ++ ["backups", name]

/-! Filesystem primitives. -/

/-- fs.access: does the file exist. -/
def fsAccess (s : Store) (p : FsPath) : Bool :=
  (lookupA s.files p).isSome

/-- ensureDir: create the directory if missing. -/
def ensureDirFS (s : Store) (d : FsPath) : Store :=
  if d ∈ s.dirs then s else { s with dirs := s.dirs ++ [d] }

/-- fs.writeFile: (over)write the file, stamping the current mtime. -/
def rawWriteFS (s : Store) (p : FsPath) (c : FileContent) (now : Nat) : Store :=
  { s with files := setA s.files p ⟨c, now⟩ }

/-- writeJsonFile: ensure the parent directory exists, then write. -/
def writeJsonFS (s : Store) (p : FsPath) (c : FileContent) (now : Nat) : Store :=
  rawWriteFS (ensureDirFS s p.dropLast) p c now

/-- fs.unlink. -/
def unlinkFS (s : Store) (p : FsPath) : Store :=
  { s with files := eraseA s.files p }

/-- The name of p as a direct child of directory d, if it is one. -/
def childNameOf (d p : FsPath) : Option String :=
  if p.take d.length = d then
    match p.drop d.length with
    | [n] => some n
    | _ => none
  else none

/-- The entries of directory d. -/
def dirChildren (files : List (FsPath × MFile)) (d : FsPath) : List String :=
  files.filterMap (fun kv => childNameOf d kv.1)

/-- fs.readdir: none models the ENOENT throw on a missing directory. -/
def readdirFS (s : Store) (d : FsPath) : Option (List String) :=
  if d ∈ s.dirs then some (dirChildren s.files d) else none

/-- readJsonFile deserialized as a ProjectState: null (none) when the file
is missing or does not parse. -/
def readProjFS (s : Store) (p : FsPath) : Option ProjectState :=
  match lookupA s.files p with
  | some f =>
    match f.content with
    | FileContent.projFile q => some q
    | _ => none
  | none => none

/-! StateManager operations.  The ambient clock is passed explicitly:
tsName is the filesystem-safe timestamp string used in backup file names,
now the mtime stamped on writes. -/

/-- saveProjectsIndex: persist the in-memory index to projects.json. -/
def saveProjectsIndexFS (s : Store) (now : Nat) : Store :=
  writeJsonFS s (indexFilePath s) (.indexFile s.projectsIndex) now

/-- projectExists: index lookup plus file reachability; on a dangling entry
the index is self-healed (entry dropped, index re-persisted). -/
def projectExists (s : Store) (projectId : String) (now : Nat) : Bool × Store :=
  match lookupA s.projectsIndex projectId with
  | none => (false, s)
  | some filePath =>
    if fsAccess s filePath then (true, s)
    else
      let s1 := { s with projectsIndex := eraseA s.projectsIndex projectId }
      (false, saveProjectsIndexFS s1 now)

/-- String.startsWith on the character lists (code-unit comparison). -/
def strStartsWith (a pre : String) : Bool :=
  pre.data.isPrefixOf a.data

/-- String.endsWith on the character lists (code-unit comparison). -/
def strEndsWith (a suf : String) : Bool :=
  suf.data.isSuffixOf a.data

/-- The backup-name filter of cleanupOldBackups and restoreProjectState:
file.startsWith(projectId + "_") && file.endsWith(".json"). -/
def backupMatches (projectId : String) (file : String) : Bool :=
  strStartsWith file (projectId ++ "_") && strEndsWith file ".json"

/-- The descending-mtime comparator of cleanupOldBackups. -/
def mtimeGE (a b : String × Nat) : Prop := b.2 ≤ a.2

instance : DecidableRel mtimeGE := fun a b => Nat.decLe b.2 a.2

instance : IsTotal (String × Nat) mtimeGE :=
  ⟨fun a b => (Nat.le_total a.2 b.2).symm⟩

instance : IsTrans (String × Nat) mtimeGE :=
  ⟨fun _ _ _ hab hbc => Nat.le_trans hbc hab⟩

/-- Delete the given files in order. -/
def deleteFiles (s : Store) (ps : List FsPath) : Store :=
  ps.foldl unlinkFS s

/-- cleanupOldBackups: list this project's backups; when more than 10
exist, sort them by mtime descending and delete everything after the first
10.  All failures (including a missing backups directory) are swallowed. -/
def cleanupOldBackups (s : Store) (projectId : String) : Store :=
  match readdirFS s (backupDirPath s) with
  | none => s
  | some files =>
    let projectBackups := files.filter (backupMatches projectId)
    if projectBackups.length ≤ 10 then s
    else
      let withTimes := projectBackups.filterMap (fun n =>
        (lookupA s.files (backupFilePath s n)).map (fun f => (n, f.mtime)))
      let sorted := withTimes.insertionSort mtimeGE
      deleteFiles s ((sorted.drop 10).map (fun nb => backupFilePath s nb.1))

/-- createBackup: copy the current record file (verbatim) into the backups
directory under a timestamped name, then run retention cleanup.  Missing
index entry or unreadable source file abort silently. -/
def createBackup (s : Store) (projectId : String) (tsName : String) (now : Nat) : Store :=
  match lookupA s.projectsIndex projectId with
  | none => s
  | some filePath =>
    let s1 := ensureDirFS s (backupDirPath s)
    let backupFileName := projectId ++ "_" ++ tsName ++ ".json"
    match lookupA s1.files filePath with
    | none => s1
    | some f =>
      let s2 := rawWriteFS s1 (backupFilePath s1 backupFileName) f.content now
      cleanupOldBackups s2 projectId

/-- The backup phase of saveProjectState: when autoBackup is on and the
record already exists on disk, create a backup first (short-circuit, so
projectExists only runs when autoBackup is enabled). -/
def savePrelude (s : Store) (projectId tsName : String) (now : Nat) : Store :=
  let br := if s.autoBackup then projectExists s projectId now else (false, s)
  if br.1 then createBackup br.2 projectId tsName now else br.2

/-- saveProjectState: run the backup phase, then write the record file,
update the in-memory index, and persist the index. -/
def saveProjectState (s : Store) (project : ProjectState) (tsName : String) (now : Nat) :
    Store :=
  let filePath := recordPath s project.id
  let s2 := savePrelude s project.id tsName now
  let s3 := writeJsonFS s2 filePath (.projFile project) now
  let s4 := { s3 with projectsIndex := setA s3.projectsIndex project.id filePath }
  saveProjectsIndexFS s4 now

/-- loadProjectState: not-found (none) when the id is absent from the index
or the file is missing/corrupt; the store (including the index) is returned
unchanged in every case. -/
def loadProjectState (s : Store) (projectId : String) : Store × Option ProjectState :=
  match lookupA s.projectsIndex projectId with
  | none => (s, none)
  | some filePath =>
    match readProjFS s filePath with
    | none => (s, none)
    | some project => (s, some project)

/-- Lexicographic comparison of character lists by code point, the order
JavaScript default string sort uses (code-unit comparison; identical on the
ASCII names involved). -/
def lexLEb : List Char → List Char → Bool
  | [], _ => true
  | _ :: _, [] => false
  | a :: as, b :: bs =>
    if a.toNat < b.toNat then true
    else if b.toNat < a.toNat then false
    else lexLEb as bs

/-- The string order used by the backup-name sort. -/
def strLE (a b : String) : Prop := lexLEb a.data b.data = true

instance : DecidableRel strLE := fun a b =>
  instDecidableEqBool (lexLEb a.data b.data) true

theorem lexLEb_total (x : List Char) : ∀ y, lexLEb x y = true ∨ lexLEb y x = true := by
  induction x with
  | nil => intro y; left; rfl
  | cons a as ih =>
    intro y
    cases y with
    | nil => right; rfl
    | cons b bs =>
      by_cases hab : a.toNat < b.toNat
      · left
        simp [lexLEb, hab]
      · by_cases hba : b.toNat < a.toNat
        · right
          simp [lexLEb, hba]
        · rcases ih bs with h | h
          · left
            simp [lexLEb, hab, hba, h]
          · right
            simp [lexLEb, hab, hba, h]

theorem lexLEb_trans (x : List Char) :
    ∀ y z, lexLEb x y = true → lexLEb y z = true → lexLEb x z = true := by
  induction x with
  | nil => intro y z _ _; rfl
  | cons a as ih =>
    intro y z hxy hyz
    cases y with
    | nil => simp [lexLEb] at hxy
    | cons b bs =>
      cases z with
      | nil => simp [lexLEb] at hyz
      | cons c cs =>
        simp only [lexLEb] at hxy hyz ⊢
        by_cases hab : a.toNat < b.toNat
        · by_cases hbc : b.toNat < c.toNat
          · simp [Nat.lt_trans hab hbc]
          · rw [if_neg hbc] at hyz
            by_cases hcb : c.toNat < b.toNat
            · rw [if_pos hcb] at hyz
              cases hyz
            · have hac : a.toNat < c.toNat := by omega
              simp [hac]
        · rw [if_neg hab] at hxy
          by_cases hba : b.toNat < a.toNat
          · rw [if_pos hba] at hxy
            cases hxy
          · rw [if_neg hba] at hxy
            by_cases hbc : b.toNat < c.toNat
            · have hac : a.toNat < c.toNat := by omega
              simp [hac]
            · rw [if_neg hbc] at hyz
              by_cases hcb : c.toNat < b.toNat
              · rw [if_pos hcb] at hyz
                cases hyz
              · rw [if_neg hcb] at hyz
                have h1 : ¬ a.toNat < c.toNat := by omega
                have h2 : ¬ c.toNat < a.toNat := by omega
                simp [h1, h2, ih bs cs hxy hyz]

instance : IsTotal String strLE := ⟨fun a b => lexLEb_total a.data b.data⟩

instance : IsTrans String strLE := ⟨fun a b c => lexLEb_trans a.data b.data c.data⟩

theorem strLE_refl (a : String) : strLE a a := by
  show lexLEb a.data a.data = true
  induction a.data with
  | nil => rfl
  | cons c t ih => simp [lexLEb, ih]

/-- The latest backup selection of restoreProjectState: filter, sort
lexicographically, reverse, take the head. -/
def latestBackupName (files : List String) (projectId : String) : Option String :=
  (((files.filter (backupMatches projectId)).insertionSort strLE).reverse).head?

/-- restoreProjectState: pick the named (or lexicographically latest)
backup, deserialize it, and re-save it as the current record through
saveProjectState.  A missing backups directory surfaces as
RESTORE_STATE_ERROR; no matching backup or a corrupt backup file yields a
null result with the store untouched. -/
def restoreProjectState (s : Store) (projectId : String)
    (backupTimestamp : Option String) (tsName : String) (now : Nat) :
    Store × Except DevelopmentFlowError (Option ProjectState) :=
  match readdirFS s (backupDirPath s) with
  | none =>
    (s, .error ⟨"Failed to restore project state", "RESTORE_STATE_ERROR", none,
      some projectId⟩)
  | some files =>
    let backupFileOpt : Option String :=
      match backupTimestamp with
      | some t => some (projectId ++ "_" ++ t ++ ".json")
      | none => latestBackupName files projectId
    match backupFileOpt with
    | none => (s, .ok none)
    | some backupFile =>
      match readProjFS s (backupFilePath s backupFile) with
      | none => (s, .ok none)
      | some project =>
        (saveProjectState s project tsName now, .ok (some project))

/-! ## Association-list lemmas -/

theorem lookupA_setA_self {α β : Type} [DecidableEq α] (l : List (α × β)) (k : α) (v : β) :
    lookupA (setA l k v) k = some v := by
  induction l with
  | nil => simp [setA, lookupA]
  | cons kv t ih =>
    obtain ⟨k0, v0⟩ := kv
    by_cases h : k0 = k <;> simp [setA, lookupA, h, ih]

theorem lookupA_setA_ne {α β : Type} [DecidableEq α] (l : List (α × β)) (k k' : α) (v : β)
    (h : k' ≠ k) : lookupA (setA l k v) k' = lookupA l k' := by
  induction l with
  | nil => simp [setA, lookupA, Ne.symm h]
  | cons kv t ih =>
    obtain ⟨k0, v0⟩ := kv
    by_cases h0 : k0 = k
    · subst h0
      simp [setA, lookupA, Ne.symm h]
    · simp [setA, lookupA, h0, ih]

theorem lookupA_eraseA {α β : Type} [DecidableEq α] (l : List (α × β)) (k k' : α) :
    lookupA (eraseA l k) k' = if k' = k then none else lookupA l k' := by
  induction l with
  | nil => simp [eraseA, lookupA]
  | cons kv t ih =>
    obtain ⟨k0, v0⟩ := kv
    by_cases h0 : k0 = k
    · subst h0
      have he : eraseA ((k0, v0) :: t) k0 = eraseA t k0 := by
        simp [eraseA]
      rw [he, ih]
      by_cases h1 : k' = k0
      · simp [h1]
      · simp [h1, lookupA, Ne.symm h1]
    · have he : eraseA ((k0, v0) :: t) k = (k0, v0) :: eraseA t k := by
        simp [eraseA, h0]
      rw [he]
      show (if k0 = k' then some v0 else lookupA (eraseA t k) k') = _
      by_cases h1 : k0 = k'
      · have h2 : ¬ (k' = k) := fun hh => h0 (h1.trans hh)
        simp [h1, lookupA, h2]
      · rw [if_neg h1, ih]
        by_cases h2 : k' = k
        · simp [h2, lookupA, h1]
        · simp [h2, lookupA, h1]

/-! ## Invariance of stateDir and projectsIndex under store operations -/

theorem ensureDirFS_stateDir (s : Store) (d : FsPath) :
    (ensureDirFS s d).stateDir = s.stateDir := by
  unfold ensureDirFS
  split <;> rfl

theorem ensureDirFS_files (s : Store) (d : FsPath) :
    (ensureDirFS s d).files = s.files := by
  unfold ensureDirFS
  split <;> rfl

theorem ensureDirFS_projectsIndex (s : Store) (d : FsPath) :
    (ensureDirFS s d).projectsIndex = s.projectsIndex := by
  unfold ensureDirFS
  split <;> rfl

theorem writeJsonFS_stateDir (s : Store) (p : FsPath) (c : FileContent) (now : Nat) :
    (writeJsonFS s p c now).stateDir = s.stateDir := by
  simp [writeJsonFS, rawWriteFS, ensureDirFS_stateDir]

theorem writeJsonFS_projectsIndex (s : Store) (p : FsPath) (c : FileContent) (now : Nat) :
    (writeJsonFS s p c now).projectsIndex = s.projectsIndex := by
  simp [writeJsonFS, rawWriteFS, ensureDirFS_projectsIndex]

theorem writeJsonFS_files (s : Store) (p : FsPath) (c : FileContent) (now : Nat) :
    (writeJsonFS s p c now).files = setA s.files p ⟨c, now⟩ := by
  simp [writeJsonFS, rawWriteFS, ensureDirFS_files]

theorem deleteFiles_stateDir (ps : List FsPath) (s : Store) :
    (deleteFiles s ps).stateDir = s.stateDir := by
  induction ps generalizing s with
  | nil => rfl
  | cons p t ih => simp [deleteFiles, List.foldl_cons, unlinkFS] at ih ⊢; exact ih _

theorem deleteFiles_projectsIndex (ps : List FsPath) (s : Store) :
    (deleteFiles s ps).projectsIndex = s.projectsIndex := by
  induction ps generalizing s with
  | nil => rfl
  | cons p t ih => simp [deleteFiles, List.foldl_cons, unlinkFS] at ih ⊢; exact ih _

theorem cleanupOldBackups_stateDir (s : Store) (projectId : String) :
    (cleanupOldBackups s projectId).stateDir = s.stateDir := by
  unfold cleanupOldBackups
  cases readdirFS s (backupDirPath s)
  · rfl
  · simp only []
    split
    · rfl
    · exact deleteFiles_stateDir _ _

theorem cleanupOldBackups_projectsIndex (s : Store) (projectId : String) :
    (cleanupOldBackups s projectId).projectsIndex = s.projectsIndex := by
  unfold cleanupOldBackups
  cases readdirFS s (backupDirPath s)
  · rfl
  · simp only []
    split
    · rfl
    · exact deleteFiles_projectsIndex _ _

theorem createBackup_stateDir (s : Store) (projectId tsName : String) (now : Nat) :
    (createBackup s projectId tsName now).stateDir = s.stateDir := by
  unfold createBackup
  cases lookupA s.projectsIndex projectId
  · rfl
  · simp only []
    split
    · exact ensureDirFS_stateDir _ _
    · rw [cleanupOldBackups_stateDir]
      simp [rawWriteFS, ensureDirFS_stateDir]

theorem createBackup_projectsIndex (s : Store) (projectId tsName : String) (now : Nat) :
    (createBackup s projectId tsName now).projectsIndex = s.projectsIndex := by
  unfold createBackup
  cases lookupA s.projectsIndex projectId
  · rfl
  · simp only []
    split
    · exact ensureDirFS_projectsIndex _ _
    · rw [cleanupOldBackups_projectsIndex]
      simp [rawWriteFS, ensureDirFS_projectsIndex]

theorem projectExists_stateDir (s : Store) (projectId : String) (now : Nat) :
    (projectExists s projectId now).2.stateDir = s.stateDir := by
  unfold projectExists
  cases lookupA s.projectsIndex projectId
  · rfl
  · simp only []
    split
    · rfl
    · exact writeJsonFS_stateDir _ _ _ _

theorem withIndex_files (st : Store) (idx : List (String × FsPath)) :
    ({ st with projectsIndex := idx } : Store).files = st.files := rfl

theorem withIndex_stateDir (st : Store) (idx : List (String × FsPath)) :
    ({ st with projectsIndex := idx } : Store).stateDir = st.stateDir := rfl

theorem saveProjectsIndexFS_projectsIndex (s : Store) (now : Nat) :
    (saveProjectsIndexFS s now).projectsIndex = s.projectsIndex := by
  simp [saveProjectsIndexFS, writeJsonFS_projectsIndex]

theorem saveProjectsIndexFS_stateDir (s : Store) (now : Nat) :
    (saveProjectsIndexFS s now).stateDir = s.stateDir := by
  simp [saveProjectsIndexFS, writeJsonFS_stateDir]

theorem lookupA_saveProjectsIndexFS_files (s : Store) (now : Nat) (p : FsPath)
    (h : p ≠ indexFilePath s) :
    lookupA (saveProjectsIndexFS s now).files p = lookupA s.files p := by
  simp only [saveProjectsIndexFS, writeJsonFS_files]
  exact lookupA_setA_ne _ _ _ _ h

theorem savePrelude_stateDir (s : Store) (projectId tsName : String) (now : Nat) :
    (savePrelude s projectId tsName now).stateDir = s.stateDir := by
  unfold savePrelude
  by_cases hb : s.autoBackup
  · simp only [hb, if_true]
    split
    · rw [createBackup_stateDir, projectExists_stateDir]
    · rw [projectExists_stateDir]
  · simp [hb]

theorem saveProjectState_stateDir (s : Store) (p : ProjectState) (tsName : String)
    (now : Nat) : (saveProjectState s p tsName now).stateDir = s.stateDir := by
  show (saveProjectsIndexFS
    { writeJsonFS (savePrelude s p.id tsName now) (recordPath s p.id)
        (.projFile p) now with
      projectsIndex := setA (writeJsonFS (savePrelude s p.id tsName now) (recordPath s p.id)
        (.projFile p) now).projectsIndex p.id (recordPath s p.id) } now).stateDir = s.stateDir
  rw [saveProjectsIndexFS_stateDir, withIndex_stateDir, writeJsonFS_stateDir,
    savePrelude_stateDir]

/-! ## Claim theorems: load / projectExists (store) -/

/-- Concrete store whose index has a dangling entry for p1. -/
def storeC2 : Store :=
  ⟨["states"], [["states"]], [], [("p1", ["states", "p1.json"])], true⟩

/-- C2 counterexample to the claim as stated: load on a dangling index
entry returns not-found but leaves the store - including the stale index
entry - completely unchanged; no self-repair happens in load. -/
theorem load_no_self_repair_counterexample :
    (loadProjectState storeC2 "p1").2 = none ∧
    (loadProjectState storeC2 "p1").1 = storeC2 ∧
    lookupA (loadProjectState storeC2 "p1").1.projectsIndex "p1" =
      some ["states", "p1.json"] :=
  ⟨rfl, rfl, rfl⟩

/-- C2 (amended): load returns the deserialized record exactly when the
index maps the id to a file that parses as a record, and a not-found result
otherwise (id absent, file missing, or corrupt); load itself never modifies
the store.  Index self-repair (dropping the stale entry and re-persisting
the index) is performed by projectExists when the indexed file is
unreachable. -/
theorem load_characterization_and_exists_self_repair :
    (∀ (s : Store) (projectId : String), (loadProjectState s projectId).1 = s) ∧
    (∀ (s : Store) (projectId : String) (rec : ProjectState),
      (loadProjectState s projectId).2 = some rec ↔
        ∃ fp f, lookupA s.projectsIndex projectId = some fp ∧
          lookupA s.files fp = some f ∧ f.content = FileContent.projFile rec) ∧
    (∀ (s : Store) (projectId : String) (now : Nat) (fp : FsPath),
      lookupA s.projectsIndex projectId = some fp →
      fsAccess s fp = false →
      (projectExists s projectId now).1 = false ∧
      (projectExists s projectId now).2.projectsIndex = eraseA s.projectsIndex projectId ∧
      lookupA (projectExists s projectId now).2.files (indexFilePath s) =
        some ⟨FileContent.indexFile (eraseA s.projectsIndex projectId), now⟩) := by
  refine ⟨?_, ?_, ?_⟩
  · intro s projectId
    unfold loadProjectState
    cases lookupA s.projectsIndex projectId
    · rfl
    · simp only []
      cases readProjFS s _ <;> rfl
  · intro s projectId rec
    unfold loadProjectState readProjFS
    cases hidx : lookupA s.projectsIndex projectId with
    | none => simp
    | some fp0 =>
      simp only [Option.some.injEq]
      cases hf : lookupA s.files fp0 with
      | none => simp [hf]
      | some f0 =>
        obtain ⟨c0, mt0⟩ := f0
        cases c0 with
        | projFile q =>
          constructor
          · intro h
            injection h with h
            exact ⟨fp0, ⟨FileContent.projFile q, mt0⟩, rfl, hf, by rw [h]⟩
          · rintro ⟨fp, f, hfp, hff, hcc⟩
            subst hfp
            rw [hf] at hff
            injection hff with hff
            subst hff
            injection hcc with hcc
            rw [hcc]
        | indexFile m =>
          constructor
          · intro h
            exact Option.noConfusion h
          · rintro ⟨fp, f, hfp, hff, hcc⟩
            subst hfp
            rw [hf] at hff
            injection hff with hff
            subst hff
            exact FileContent.noConfusion hcc
        | corrupt =>
          constructor
          · intro h
            exact Option.noConfusion h
          · rintro ⟨fp, f, hfp, hff, hcc⟩
            subst hfp
            rw [hf] at hff
            injection hff with hff
            subst hff
            exact FileContent.noConfusion hcc
  · intro s projectId now fp hidx hacc
    unfold projectExists
    rw [hidx]
    simp only [hacc, Bool.false_eq_true, if_false]
    refine ⟨?_, ?_, ?_⟩
    · trivial
    · simp [saveProjectsIndexFS, writeJsonFS_projectsIndex]
    · have hip : indexFilePath { s with projectsIndex := eraseA s.projectsIndex projectId } =
        indexFilePath s := rfl
      simp [saveProjectsIndexFS, writeJsonFS_files, hip, lookupA_setA_self]

/-- C2 witness: concrete application of the amended theorem on the dangling
store. -/
theorem load_characterization_witness :
    (loadProjectState storeC2 "p1").1 = storeC2 ∧
    (projectExists storeC2 "p1" 7).1 = false ∧
    (projectExists storeC2 "p1" 7).2.projectsIndex = eraseA storeC2.projectsIndex "p1" := by
  obtain ⟨h1, _, h3⟩ := load_characterization_and_exists_self_repair
  have h := h3 storeC2 "p1" 7 ["states", "p1.json"] (by decide) (by decide)
  exact ⟨h1 storeC2 "p1", h.1, h.2.1⟩

/-! ## Claim theorems: save → load round trip -/

/-- C7 (amended): save followed by load round-trips the record exactly -
identical in every field, updatedAt included.  saveProjectState writes the
record verbatim and does not refresh updatedAt (the phase handlers re-stamp
it before calling save).  The id hypothesis rules out collision with the
reserved index file name. -/
theorem save_load_roundtrip (s : Store) (p : ProjectState) (tsName : String) (now : Nat)
    (hid : p.id ++ ".json" ≠ "projects.json") :
    lookupA (saveProjectState s p tsName now).files (recordPath s p.id) =
      some ⟨FileContent.projFile p, now⟩ ∧
    (loadProjectState (saveProjectState s p tsName now) p.id).2 = some p := by
  set S2 := savePrelude s p.id tsName now with hS2
  set S3 := writeJsonFS S2 (recordPath s p.id) (.projFile p) now with hS3
  set S4 : Store := { S3 with projectsIndex := setA S3.projectsIndex p.id (recordPath s p.id) }
    with hS4
  have hsave : saveProjectState s p tsName now = saveProjectsIndexFS S4 now := rfl
  have hS4sd : S4.stateDir = s.stateDir := by
    rw [hS4, withIndex_stateDir, hS3, writeJsonFS_stateDir, hS2, savePrelude_stateDir]
  have hne : recordPath s p.id ≠ indexFilePath S4 := by
    intro h
    unfold recordPath indexFilePath at h
    rw [hS4sd] at h
    have h2 := List.append_cancel_left h
    injection h2 with h3
    exact hid h3
  have hrec : lookupA (saveProjectState s p tsName now).files (recordPath s p.id) =
      some ⟨FileContent.projFile p, now⟩ := by
    rw [hsave, lookupA_saveProjectsIndexFS_files _ _ _ hne, hS4, withIndex_files, hS3,
      writeJsonFS_files]
    exact lookupA_setA_self _ _ _
  have hidx : lookupA (saveProjectState s p tsName now).projectsIndex p.id =
      some (recordPath s p.id) := by
    rw [hsave, saveProjectsIndexFS_projectsIndex, hS4]
    show lookupA (setA S3.projectsIndex p.id (recordPath s p.id)) p.id = _
    exact lookupA_setA_self _ _ _
  refine ⟨hrec, ?_⟩
  unfold loadProjectState
  rw [hidx]
  simp only [readProjFS, hrec]

/-- Empty store with auto-backup off, used for concrete save/load runs. -/
def storeC7 : Store := ⟨["states"], [["states"]], [], [], false⟩

/-- A record whose updatedAt is a stale timestamp. -/
def projC7 : ProjectState :=
  { baseProject with updatedAt := "TS-OLD" }

/-- C7 counterexample to the claim as stated: saving at a later clock value
("TS-NEW") and loading returns the record with its original updatedAt
("TS-OLD"); save does not refresh updatedAt before writing. -/
theorem save_not_refresh_updatedAt_counterexample :
    (loadProjectState (saveProjectState storeC7 projC7 "TS-NEW" 5) "p1").2 = some projC7 ∧
    projC7.updatedAt = "TS-OLD" ∧ ("TS-OLD" : String) ≠ "TS-NEW" :=
  ⟨rfl, rfl, by decide⟩

/-- C7 witness: concrete application of the round-trip theorem. -/
theorem save_load_roundtrip_witness :
    (("p1" : String) ++ ".json" ≠ "projects.json") ∧
    (loadProjectState (saveProjectState storeC7 projC7 "TS-NEW" 5) "p1").2 = some projC7 :=
  ⟨by decide, (save_load_roundtrip storeC7 projC7 "TS-NEW" 5 (by decide)).2⟩

/-! ## Claim theorems: restore -/

theorem latestBackupName_max (files : List String) (projectId c : String)
    (hc : latestBackupName files projectId = some c) :
    c ∈ files.filter (backupMatches projectId) ∧
    ∀ m ∈ files.filter (backupMatches projectId), strLE m c := by
  set M := files.filter (backupMatches projectId) with hM
  set L := M.insertionSort strLE with hL
  have hperm := List.perm_insertionSort strLE M
  have hsort : L.Sorted strLE := List.sorted_insertionSort strLE M
  have hcL : c ∈ L.reverse := List.mem_of_mem_head? hc
  have hcM : c ∈ M := hperm.mem_iff.mp (List.mem_reverse.mp hcL)
  refine ⟨hcM, ?_⟩
  intro m hm
  obtain ⟨rest, hR⟩ : ∃ rest, L.reverse = c :: rest := by
    cases hrev : L.reverse with
    | nil =>
      rw [latestBackupName, ← hL, hrev] at hc
      cases hc
    | cons x t =>
      rw [latestBackupName, ← hL, hrev] at hc
      injection hc with h1
      exact ⟨t, by rw [h1]⟩
  have hLr : L = rest.reverse ++ [c] := by
    have h2 := congrArg List.reverse hR
    rw [List.reverse_reverse, List.reverse_cons] at h2
    exact h2
  have hmL : m ∈ L := hperm.mem_iff.mpr hm
  rw [hLr] at hmL hsort
  rcases List.mem_append.mp hmL with hmr | hmc
  · have hmtake : m ∈ (rest.reverse ++ [c]).take rest.reverse.length := by
      rw [List.take_left]
      exact hmr
    have hcdrop : c ∈ (rest.reverse ++ [c]).drop rest.reverse.length := by
      rw [List.drop_left]
      exact List.mem_singleton.mpr rfl
    exact hsort.rel_of_mem_take_of_mem_drop hmtake hcdrop
  · rw [List.mem_singleton.mp hmc]
    exact strLE_refl c

/-- C3 (amended): restore with no timestamp selects the lexicographically
latest matching backup and re-saves its contents as the current record
through the normal save path; when the backups directory exists but holds
no matching backup, or the selected backup is corrupt, it returns a null
result (not a RestoreError) with the store untouched; RESTORE_STATE_ERROR
arises only when the underlying directory listing fails (missing backups
directory). -/
theorem restore_latest_and_null_cases :
    (∀ (s : Store) (projectId tsName : String) (now : Nat) (files : List String)
        (c : String) (p : ProjectState),
      readdirFS s (backupDirPath s) = some files →
      latestBackupName files projectId = some c →
      readProjFS s (backupFilePath s c) = some p →
      restoreProjectState s projectId none tsName now =
        (saveProjectState s p tsName now, .ok (some p)) ∧
      c ∈ files.filter (backupMatches projectId) ∧
      ∀ m ∈ files.filter (backupMatches projectId), strLE m c) ∧
    (∀ (s : Store) (projectId tsName : String) (now : Nat) (files : List String),
      readdirFS s (backupDirPath s) = some files →
      latestBackupName files projectId = none →
      restoreProjectState s projectId none tsName now = (s, .ok none)) ∧
    (∀ (s : Store) (projectId tsName : String) (now : Nat) (files : List String)
        (c : String),
      readdirFS s (backupDirPath s) = some files →
      latestBackupName files projectId = some c →
      readProjFS s (backupFilePath s c) = none →
      restoreProjectState s projectId none tsName now = (s, .ok none)) ∧
    (∀ (s : Store) (projectId tsName : String) (now : Nat),
      readdirFS s (backupDirPath s) = none →
      restoreProjectState s projectId none tsName now =
        (s, .error ⟨"Failed to restore project state", "RESTORE_STATE_ERROR", none,
          some projectId⟩)) := by
  refine ⟨?_, ?_, ?_, ?_⟩
  · intro s projectId tsName now files c p hdir hlatest hread
    refine ⟨?_, latestBackupName_max files projectId c hlatest⟩
    unfold restoreProjectState
    rw [hdir]
    simp only [hlatest, hread]
  · intro s projectId tsName now files hdir hlatest
    unfold restoreProjectState
    rw [hdir]
    simp only [hlatest]
  · intro s projectId tsName now files c hdir hlatest hread
    unfold restoreProjectState
    rw [hdir]
    simp only [hlatest, hread]
  · intro s projectId tsName now hdir
    unfold restoreProjectState
    rw [hdir]

/-- Store whose backups directory exists and holds exactly one (corrupt)
backup for p1. -/
def storeC3 : Store :=
  ⟨["states"], [["states"], ["states", "backups"]],
   [(["states", "backups", "p1_2024.json"], ⟨FileContent.corrupt, 0⟩)],
   [], true⟩

/-- C3 counterexample to the claim as stated: with only a corrupt backup
for p1, restore does not fail with RestoreError - it returns a successful
null result and leaves the store untouched.  (The same null result is
produced when no matching backup exists at all.) -/
theorem restore_claim_counterexample :
    restoreProjectState storeC3 "p1" none "TS" 1 = (storeC3, .ok none) ∧
    (restoreProjectState storeC3 "p1" none "TS" 1).2.isOk = true := by
  refine ⟨rfl, rfl⟩

/-- Store with two parseable backups for p1; the 2025 one is
lexicographically later. -/
def storeC3b : Store :=
  ⟨["states"], [["states"], ["states", "backups"]],
   [(["states", "backups", "p1_2024.json"], ⟨FileContent.projFile baseProject, 1⟩),
    (["states", "backups", "p1_2025.json"], ⟨FileContent.projFile projC7, 2⟩)],
   [], true⟩

/-- C3 witness: concrete application of the amended theorem; the later
backup is selected and re-saved through saveProjectState. -/
theorem restore_latest_witness :
    restoreProjectState storeC3b "p1" none "TS" 3 =
      (saveProjectState storeC3b projC7 "TS" 3, .ok (some projC7)) ∧
    "p1_2025.json" ∈
      (dirChildren storeC3b.files (backupDirPath storeC3b)).filter (backupMatches "p1") := by
  have h := restore_latest_and_null_cases.1 storeC3b "p1" "TS" 3
    (dirChildren storeC3b.files (backupDirPath storeC3b)) "p1_2025.json" projC7
    (by decide) (by decide) (by decide)
  exact ⟨h.1, h.2.1⟩

/-! ## Backup retention (cleanupOldBackups) -/

/-- The backup files currently on disk for a project id, as
cleanupOldBackups sees them (the empty list when the backups directory does
not exist). -/
def backupNamesFor (s : Store) (projectId : String) : List String :=
  match readdirFS s (backupDirPath s) with
  | some files => files.filter (backupMatches projectId)
  | none => []

/-- The mtime of a named backup file. -/
def mtimeOf (s : Store) (n : String) : Option Nat :=
  (lookupA s.files (backupFilePath s n)).map MFile.mtime

/-- Well-formedness: file paths are unique (a filesystem property). -/
def keysNodup (s : Store) : Prop := (s.files.map Prod.fst).Nodup

theorem childNameOf_eq_some (d p : FsPath) (n : String) :
    childNameOf d p = some n ↔ p = d ++ [n] := by
  constructor
  · intro h
    by_cases htake : p.take d.length = d
    · rw [childNameOf, if_pos htake] at h
      cases hdrop : p.drop d.length with
      | nil =>
        rw [hdrop] at h
        cases h
      | cons x t =>
        cases t with
        | nil =>
          rw [hdrop] at h
          injection h with h1
          subst h1
          conv_lhs => rw [← List.take_append_drop d.length p]
          rw [htake, hdrop]
        | cons y u =>
          rw [hdrop] at h
          cases h
    · rw [childNameOf, if_neg htake] at h
      cases h
  · rintro rfl
    rw [childNameOf, if_pos (List.take_left d [n])]
    rw [List.drop_left d [n]]

theorem mem_dirChildren (files : List (FsPath × MFile)) (d : FsPath) (n : String) :
    n ∈ dirChildren files d ↔ ∃ v, (d ++ [n], v) ∈ files := by
  unfold dirChildren
  rw [List.mem_filterMap]
  constructor
  · rintro ⟨kv, hkv, hc⟩
    rw [childNameOf_eq_some] at hc
    refine ⟨kv.2, ?_⟩
    rw [← hc]
    exact hkv
  · rintro ⟨v, hv⟩
    exact ⟨(d ++ [n], v), hv, (childNameOf_eq_some _ _ _).mpr rfl⟩

theorem dirChildren_eq_filterMap_keys (files : List (FsPath × MFile)) (d : FsPath) :
    dirChildren files d = (files.map Prod.fst).filterMap (childNameOf d) := by
  unfold dirChildren
  rw [List.filterMap_map]
  rfl

theorem dirChildren_nodup (files : List (FsPath × MFile)) (d : FsPath)
    (h : (files.map Prod.fst).Nodup) : (dirChildren files d).Nodup := by
  rw [dirChildren_eq_filterMap_keys]
  refine List.Nodup.filterMap ?_ h
  intro a a' b hb hb'
  have h1 := (childNameOf_eq_some d a b).mp (Option.mem_def.mp hb)
  have h2 := (childNameOf_eq_some d a' b).mp (Option.mem_def.mp hb')
  rw [h1, h2]

theorem lookupA_isSome_of_mem {α β : Type} [DecidableEq α] (l : List (α × β)) (k : α) (v : β)
    (h : (k, v) ∈ l) : (lookupA l k).isSome := by
  induction l with
  | nil => cases h
  | cons kv t ih =>
    obtain ⟨k0, v0⟩ := kv
    by_cases hk : k0 = k
    · simp [lookupA, hk]
    · rcases List.mem_cons.mp h with heq | ht
      · injection heq with h1 h2
        exact absurd h1.symm hk
      · simp [lookupA, hk, ih ht]

theorem lookupA_eq_of_mem_nodup {α β : Type} [DecidableEq α] (l : List (α × β)) (k : α) (v : β)
    (hn : (l.map Prod.fst).Nodup) (h : (k, v) ∈ l) : lookupA l k = some v := by
  induction l with
  | nil => cases h
  | cons kv t ih =>
    obtain ⟨k0, v0⟩ := kv
    rcases List.mem_cons.mp h with heq | ht
    · injection heq with h1 h2
      simp [lookupA, h1.symm, h2]
    · by_cases hk : k0 = k
      · exfalso
        subst hk
        have : k0 ∈ t.map Prod.fst := List.mem_map.mpr ⟨(k0, v), ht, rfl⟩
        exact (List.nodup_cons.mp hn).1 this
      · simp only [List.map_cons] at hn
        simp [lookupA, hk, ih (List.nodup_cons.mp hn).2 ht]

theorem filterMap_length_eq {α β : Type} (f : α → Option β) (l : List α)
    (h : ∀ a ∈ l, (f a).isSome) : (l.filterMap f).length = l.length := by
  induction l with
  | nil => rfl
  | cons a t ih =>
    cases hf : f a with
    | none =>
      exact absurd (hf ▸ h a (List.mem_cons_self a t)) (by simp)
    | some b =>
      simp [List.filterMap_cons, hf,
        ih (fun a ha => h a (List.mem_cons_of_mem _ ha))]

theorem withTimes_fst (M : List String) (g : String → Option Nat)
    (h : ∀ n ∈ M, (g n).isSome) :
    (M.filterMap (fun n => (g n).map (fun t => (n, t)))).map Prod.fst = M := by
  induction M with
  | nil => rfl
  | cons a t ih =>
    cases hg : g a with
    | none =>
      exact absurd (hg ▸ h a (List.mem_cons_self a t)) (by simp)
    | some x =>
      simp [List.filterMap_cons, hg,
        ih (fun n hn => h n (List.mem_cons_of_mem _ hn))]

theorem mem_withTimes (M : List String) (g : String → Option Nat) (n : String) (t : Nat) :
    (n, t) ∈ M.filterMap (fun n => (g n).map (fun t => (n, t))) ↔ n ∈ M ∧ g n = some t := by
  rw [List.mem_filterMap]
  constructor
  · rintro ⟨m, hm, hmap⟩
    cases hg : g m with
    | none =>
      rw [hg] at hmap
      cases hmap
    | some x =>
      rw [hg] at hmap
      injection hmap with h1
      injection h1 with h2 h3
      subst h2
      subst h3
      exact ⟨hm, hg⟩
  · rintro ⟨hm, hg⟩
    exact ⟨n, hm, by rw [hg]; rfl⟩

theorem dirChildren_cons (kv : FsPath × MFile) (t : List (FsPath × MFile)) (d : FsPath) :
    dirChildren (kv :: t) d =
      match childNameOf d kv.1 with
      | some n => n :: dirChildren t d
      | none => dirChildren t d := by
  unfold dirChildren
  rw [List.filterMap_cons]
  cases childNameOf d kv.1 <;> rfl

theorem dirChildren_setA (files : List (FsPath × MFile)) (k : FsPath) (v : MFile)
    (d : FsPath) :
    dirChildren (setA files k v) d = dirChildren files d ∨
    ∃ n, childNameOf d k = some n ∧
      dirChildren (setA files k v) d = dirChildren files d ++ [n] := by
  induction files with
  | nil =>
    cases hc : childNameOf d k with
    | none =>
      left
      simp [setA, dirChildren, hc]
    | some n =>
      right
      exact ⟨n, rfl, by simp [setA, dirChildren, hc]⟩
  | cons kv t ih =>
    obtain ⟨k0, v0⟩ := kv
    by_cases hk : k0 = k
    · left
      subst hk
      have hset : setA ((k0, v0) :: t) k0 v = (k0, v) :: t := by simp [setA]
      rw [hset, dirChildren_cons, dirChildren_cons]
    · have hset : setA ((k0, v0) :: t) k v = (k0, v0) :: setA t k v := by
        simp [setA, hk]
      rw [hset, dirChildren_cons, dirChildren_cons]
      rcases ih with hsame | ⟨n, hn, happ⟩
      · left
        rw [hsame]
      · right
        refine ⟨n, hn, ?_⟩
        rw [happ]
        cases childNameOf d k0 <;> rfl

theorem dirChildren_setA_none (files : List (FsPath × MFile)) (k : FsPath) (v : MFile)
    (d : FsPath) (h : childNameOf d k = none) :
    dirChildren (setA files k v) d = dirChildren files d := by
  rcases dirChildren_setA files k v d with hs | ⟨n, hn, _⟩
  · exact hs
  · rw [h] at hn
    cases hn

theorem dirChildren_eraseA (files : List (FsPath × MFile)) (d k : FsPath) :
    dirChildren (eraseA files k) d =
      match childNameOf d k with
      | some n => (dirChildren files d).filter (fun m => decide (m ≠ n))
      | none => dirChildren files d := by
  induction files with
  | nil => cases childNameOf d k <;> simp [eraseA, dirChildren]
  | cons kv t ih =>
    obtain ⟨k0, v0⟩ := kv
    by_cases hk : k0 = k
    · subst hk
      have he : eraseA ((k0, v0) :: t) k0 = eraseA t k0 := by simp [eraseA]
      rw [he, ih, dirChildren_cons]
      cases hc : childNameOf d k0 with
      | none => rfl
      | some n =>
        simp [List.filter_cons]
    · have he : eraseA ((k0, v0) :: t) k = (k0, v0) :: eraseA t k := by
        simp [eraseA, hk]
      rw [he, dirChildren_cons, ih, dirChildren_cons]
      cases hc : childNameOf d k with
      | none =>
        cases hc0 : childNameOf d k0 <;> rfl
      | some n =>
        cases hc0 : childNameOf d k0 with
        | none => rfl
        | some m =>
          have hmn : m ≠ n := by
            intro hmn
            subst hmn
            have h1 := (childNameOf_eq_some d k0 m).mp hc0
            have h2 := (childNameOf_eq_some d k m).mp hc
            exact hk (h1.trans h2.symm)
          simp [List.filter_cons, hmn]

theorem deleteFiles_files (ps : List FsPath) (st : Store) :
    (deleteFiles st ps).files = ps.foldl (fun fs p => eraseA fs p) st.files := by
  induction ps generalizing st with
  | nil => rfl
  | cons p t ih =>
    simp only [deleteFiles, List.foldl_cons] at ih ⊢
    rw [ih (unlinkFS st p)]
    rfl

theorem deleteFiles_dirs (ps : List FsPath) (st : Store) :
    (deleteFiles st ps).dirs = st.dirs := by
  induction ps generalizing st with
  | nil => rfl
  | cons p t ih =>
    simp only [deleteFiles, List.foldl_cons] at ih ⊢
    rw [ih (unlinkFS st p)]
    rfl

theorem dirChildren_foldl_erase (d : FsPath) (names : List String)
    (files : List (FsPath × MFile)) :
    dirChildren (names.foldl (fun fs n => eraseA fs (d ++ [n])) files) d =
      (dirChildren files d).filter (fun m => decide (m ∉ names)) := by
  induction names generalizing files with
  | nil => simp
  | cons n rest ih =>
    simp only [List.foldl_cons]
    rw [ih]
    have h1 := dirChildren_eraseA files d (d ++ [n])
    rw [(childNameOf_eq_some d (d ++ [n]) n).mpr rfl] at h1
    rw [h1, List.filter_filter]
    apply List.filter_congr
    intro m _
    by_cases h2 : m = n <;> by_cases h3 : m ∈ rest <;> simp [h2, h3]

theorem backupFilePath_eq (s : Store) (n : String) :
    backupFilePath s n = backupDirPath s ++ [n] := by
  unfold backupFilePath backupDirPath
  rw [List.append_assoc]
  rfl

/-- cleanupOldBackups is a no-op when at most 10 matching backups exist (or
the backups directory is missing). -/
theorem cleanup_no_op (s : Store) (projectId : String)
    (h : (backupNamesFor s projectId).length ≤ 10) :
    cleanupOldBackups s projectId = s := by
  unfold cleanupOldBackups
  unfold backupNamesFor at h
  cases hrd : readdirFS s (backupDirPath s) with
  | none => rfl
  | some files =>
    rw [hrd] at h
    simp only [if_pos h]

/-- The retention core: with more than 10 matching backups, cleanup leaves
exactly 10 of them, and every deleted backup's mtime is at most every
survivor's mtime. -/
theorem cleanup_retention (s : Store) (projectId : String)
    (hnod : keysNodup s)
    (hdir : backupDirPath s ∈ s.dirs)
    (hlen : 10 < (backupNamesFor s projectId).length) :
    (backupNamesFor (cleanupOldBackups s projectId) projectId).length = 10 ∧
    (∀ kN ∈ backupNamesFor (cleanupOldBackups s projectId) projectId,
      kN ∈ backupNamesFor s projectId) ∧
    (∀ kN ∈ backupNamesFor (cleanupOldBackups s projectId) projectId,
      ∀ dN ∈ backupNamesFor s projectId,
        dN ∉ backupNamesFor (cleanupOldBackups s projectId) projectId →
        ∀ tk td, mtimeOf s kN = some tk → mtimeOf s dN = some td → td ≤ tk) := by
  have hrd : readdirFS s (backupDirPath s) = some (dirChildren s.files (backupDirPath s)) := by
    unfold readdirFS
    rw [if_pos hdir]
  set d := backupDirPath s with hd
  set L := dirChildren s.files d with hLdef
  set M := L.filter (backupMatches projectId) with hMdef
  have hMnames : backupNamesFor s projectId = M := by
    unfold backupNamesFor
    rw [hrd]
  rw [hMnames] at hlen
  -- the withTimes list and its facts
  have hWfun : (fun n => (lookupA s.files (backupFilePath s n)).map (fun f => (n, f.mtime)))
      = (fun n => (mtimeOf s n).map (fun t => (n, t))) := by
    funext n
    unfold mtimeOf
    cases lookupA s.files (backupFilePath s n) <;> rfl
  set W := M.filterMap (fun n => (mtimeOf s n).map (fun t => (n, t))) with hWdef
  have hsome : ∀ n ∈ M, (mtimeOf s n).isSome := by
    intro n hn
    have hnL : n ∈ L := (List.mem_filter.mp hn).1
    obtain ⟨v, hv⟩ := (mem_dirChildren s.files d n).mp hnL
    rw [← backupFilePath_eq] at hv
    unfold mtimeOf
    rw [lookupA_eq_of_mem_nodup s.files _ v hnod hv]
    rfl
  have hfstW : W.map Prod.fst = M := withTimes_fst M (mtimeOf s) hsome
  have hlenW : W.length = M.length := by
    rw [hWdef]
    refine filterMap_length_eq _ M ?_
    intro n hn
    cases hmt : mtimeOf s n with
    | none => exact absurd (hmt ▸ hsome n hn) (by simp)
    | some t => rfl
  set S := W.insertionSort mtimeGE with hSdef
  have hSperm : List.Perm S W := List.perm_insertionSort mtimeGE W
  have hsort : S.Sorted mtimeGE := List.sorted_insertionSort mtimeGE W
  have hMperm : List.Perm M (S.map Prod.fst) := by
    rw [← hfstW]
    exact (hSperm.map Prod.fst).symm
  set Tn := (S.take 10).map Prod.fst with hTdef
  set Dn := (S.drop 10).map Prod.fst with hDdef
  have hTD : S.map Prod.fst = Tn ++ Dn := by
    conv_lhs => rw [← List.take_append_drop 10 S]
    rw [List.map_append]
  have hMnodup : M.Nodup := List.Nodup.filter _ (dirChildren_nodup s.files d hnod)
  have hTDnodup : (Tn ++ Dn).Nodup := by
    rw [← hTD]
    exact hMperm.nodup_iff.mp hMnodup
  have hdisj := List.nodup_append.mp hTDnodup
  -- the cleaned-up store and its listing
  have hclean : cleanupOldBackups s projectId =
      deleteFiles s ((S.drop 10).map (fun nb => backupFilePath s nb.1)) := by
    unfold cleanupOldBackups
    rw [hrd]
    show (if (List.filter (backupMatches projectId) L).length ≤ 10 then s
      else deleteFiles s (((List.filterMap
        (fun n => (lookupA s.files (backupFilePath s n)).map (fun f => (n, f.mtime)))
        (List.filter (backupMatches projectId) L)).insertionSort mtimeGE).drop 10
        |>.map (fun nb => backupFilePath s nb.1))) = _
    rw [← hMdef, if_neg (by omega), hWfun, ← hWdef, ← hSdef]
  set R := deleteFiles s ((S.drop 10).map (fun nb => backupFilePath s nb.1)) with hRdef
  have hRdirs : R.dirs = s.dirs := deleteFiles_dirs _ _
  have hRsd : R.stateDir = s.stateDir := deleteFiles_stateDir _ _
  have hRd : backupDirPath R = d := by
    rw [hd]
    unfold backupDirPath
    rw [hRsd]
  have hRfiles : R.files =
      Dn.foldl (fun fs n => eraseA fs (d ++ [n])) s.files := by
    have hps : (S.drop 10).map (fun nb => backupFilePath s nb.1) =
        Dn.map (fun n => d ++ [n]) := by
      rw [hDdef, List.map_map]
      apply List.map_congr_left
      intro nb _
      exact backupFilePath_eq s nb.1
    rw [hRdef, deleteFiles_files, hps, List.foldl_map]
  have hRlisting : dirChildren R.files d = L.filter (fun m => decide (m ∉ Dn)) := by
    rw [hRfiles, dirChildren_foldl_erase]
  have hRnames : backupNamesFor R projectId =
      M.filter (fun m => decide (m ∉ Dn)) := by
    unfold backupNamesFor readdirFS
    rw [hRd, hRdirs, if_pos hdir, hRlisting, hMdef]
    show List.filter (backupMatches projectId)
      (List.filter (fun m => decide (m ∉ Dn)) L) = _
    rw [List.filter_filter, List.filter_filter]
    apply List.filter_congr
    intro m _
    rw [Bool.and_comm]
  -- survivors are a permutation of the first-10 names
  have hsurv_perm : List.Perm (backupNamesFor R projectId) Tn := by
    rw [hRnames]
    have h1 : List.Perm (M.filter (fun m => decide (m ∉ Dn)))
        ((Tn ++ Dn).filter (fun m => decide (m ∉ Dn))) := by
      apply List.Perm.filter
      rw [← hTD]
      exact hMperm
    have h2 : (Tn ++ Dn).filter (fun m => decide (m ∉ Dn)) = Tn := by
      rw [List.filter_append]
      have h3 : Tn.filter (fun m => decide (m ∉ Dn)) = Tn := by
        apply List.filter_eq_self.mpr
        intro a ha
        simp only [decide_eq_true_eq]
        exact fun hin => (List.disjoint_right.mp hdisj.2.2) hin ha
      have h4 : Dn.filter (fun m => decide (m ∉ Dn)) = [] := by
        apply List.filter_eq_nil_iff.mpr
        intro a ha
        simp [ha]
      rw [h3, h4, List.append_nil]
    rw [← h2]
    exact h1
  have hSlen : S.length = M.length := by
    rw [hSperm.length_eq, hlenW]
  have hcount : (backupNamesFor (cleanupOldBackups s projectId) projectId).length = 10 := by
    rw [hclean, hsurv_perm.length_eq, hTdef, List.length_map, List.length_take,
      hSlen]
    omega
  refine ⟨hcount, ?_, ?_⟩
  · intro kN hk
    rw [hclean, hRnames] at hk
    rw [hMnames]
    exact (List.mem_filter.mp hk).1
  · intro kN hk dN hdN hdN2 tk td htk htd
    rw [hclean, hRnames] at hk hdN2
    rw [hMnames] at hdN
    have hkM : kN ∈ M := (List.mem_filter.mp hk).1
    have hkD : kN ∉ Dn := by
      have := (List.mem_filter.mp hk).2
      simpa using this
    have hdD : dN ∈ Dn := by
      by_contra hco
      exact hdN2 (List.mem_filter.mpr ⟨hdN, by simpa using hco⟩)
    have hkW : (kN, tk) ∈ W := (mem_withTimes M (mtimeOf s) kN tk).mpr ⟨hkM, htk⟩
    have hdW : (dN, td) ∈ W := (mem_withTimes M (mtimeOf s) dN td).mpr ⟨hdN, htd⟩
    have hkS : (kN, tk) ∈ S := hSperm.mem_iff.mpr hkW
    have hdS : (dN, td) ∈ S := hSperm.mem_iff.mpr hdW
    have hkTake : (kN, tk) ∈ S.take 10 := by
      rcases List.mem_append.mp ((List.take_append_drop 10 S) ▸ hkS) with h | h
      · exact h
      · exact absurd (List.mem_map.mpr ⟨(kN, tk), h, rfl⟩) hkD
    have hdDrop : (dN, td) ∈ S.drop 10 := by
      rcases List.mem_append.mp ((List.take_append_drop 10 S) ▸ hdS) with h | h
      · exfalso
        have hdT : dN ∈ Tn := List.mem_map.mpr ⟨(dN, td), h, rfl⟩
        exact (List.disjoint_left.mp hdisj.2.2) hdT hdD
      · exact h
    exact hsort.rel_of_mem_take_of_mem_drop hkTake hdDrop

/-! ## Backup retention across saves (C6 support) -/

/-- Backup-directory sanity: the directory is either registered in dirs or
holds no files yet (a freshly initialised state directory). -/
def bdirOK (s : Store) : Prop :=
  backupDirPath s ∈ s.dirs ∨ dirChildren s.files (backupDirPath s) = []

instance (s : Store) : Decidable (bdirOK s) := by
  unfold bdirOK
  infer_instance

instance (s : Store) : Decidable (keysNodup s) := by
  unfold keysNodup
  infer_instance

theorem append_singleton_ne_self (l : FsPath) (x : String) : l ++ [x] ≠ l := by
  intro h
  have := congrArg List.length h
  simp at this

theorem bdirPath_ne_stateDir (s : Store) : backupDirPath s ≠ s.stateDir := by
  unfold backupDirPath
  exact append_singleton_ne_self s.stateDir "backups"

theorem childNameOf_sibling (sd : FsPath) (n m : String) :
    childNameOf (sd ++ [m]) (sd ++ [n]) = none := by
  unfold childNameOf
  have hlen : (sd ++ [m]).length = (sd ++ [n]).length := by simp
  by_cases h : (sd ++ [n]).take (sd ++ [m]).length = sd ++ [m]
  · rw [if_pos h]
    have hdrop : (sd ++ [n]).drop (sd ++ [m]).length = [] := by
      rw [hlen, List.drop_length]
    rw [hdrop]
  · rw [if_neg h]

theorem dropLast_append_singleton (l : FsPath) (x : String) : (l ++ [x]).dropLast = l := by
  rw [List.dropLast_concat]

theorem mem_ensureDirFS_self (s : Store) (d : FsPath) : d ∈ (ensureDirFS s d).dirs := by
  unfold ensureDirFS
  split
  · assumption
  · simp

theorem ensureDirFS_of_mem (s : Store) (d : FsPath) (h : d ∈ s.dirs) :
    ensureDirFS s d = s := by
  unfold ensureDirFS
  rw [if_pos h]

theorem mem_ensureDirFS_dirs (s : Store) (d e : FsPath) (hne : e ≠ d) :
    e ∈ (ensureDirFS s d).dirs ↔ e ∈ s.dirs := by
  unfold ensureDirFS
  split
  · exact Iff.rfl
  · simp [hne]

theorem writeJsonFS_dirs (s : Store) (p : FsPath) (c : FileContent) (now : Nat) :
    (writeJsonFS s p c now).dirs = (ensureDirFS s p.dropLast).dirs := rfl

theorem setA_map_fst {α β : Type} [DecidableEq α] (l : List (α × β)) (k : α) (v : β) :
    (setA l k v).map Prod.fst = l.map Prod.fst ∨
    ((setA l k v).map Prod.fst = l.map Prod.fst ++ [k] ∧ k ∉ l.map Prod.fst) := by
  induction l with
  | nil =>
    right
    exact ⟨rfl, by simp⟩
  | cons kv t ih =>
    obtain ⟨k0, v0⟩ := kv
    by_cases hk : k0 = k
    · left
      subst hk
      simp [setA]
    · have hset : setA ((k0, v0) :: t) k v = (k0, v0) :: setA t k v := by
        simp [setA, hk]
      rw [hset]
      rcases ih with h | ⟨h1, h2⟩
      · left
        simp [h]
      · right
        constructor
        · simp [h1]
        · simp only [List.map_cons, List.mem_cons]
          rintro (h3 | h3)
          · exact hk h3.symm
          · exact h2 h3

theorem keysNodup_setA (l : List (FsPath × MFile)) (k : FsPath) (v : MFile)
    (h : (l.map Prod.fst).Nodup) : ((setA l k v).map Prod.fst).Nodup := by
  rcases setA_map_fst l k v with he | ⟨he, hk⟩
  · rw [he]
    exact h
  · rw [he, List.nodup_append]
    refine ⟨h, List.nodup_singleton k, fun a ha hb => ?_⟩
    rw [List.mem_singleton] at hb
    subst hb
    exact hk ha

theorem keysNodup_eraseA (l : List (FsPath × MFile)) (k : FsPath)
    (h : (l.map Prod.fst).Nodup) : ((eraseA l k).map Prod.fst).Nodup := by
  have hsub : (eraseA l k).Sublist l := List.filter_sublist l
  exact h.sublist (hsub.map Prod.fst)

theorem keysNodup_rawWrite (s : Store) (p : FsPath) (c : FileContent) (now : Nat)
    (h : keysNodup s) : keysNodup (rawWriteFS s p c now) :=
  keysNodup_setA s.files p ⟨c, now⟩ h

theorem keysNodup_writeJson (s : Store) (p : FsPath) (c : FileContent) (now : Nat)
    (h : keysNodup s) : keysNodup (writeJsonFS s p c now) := by
  unfold keysNodup
  rw [writeJsonFS_files]
  exact keysNodup_setA s.files p ⟨c, now⟩ h

theorem keysNodup_deleteFiles (ps : List FsPath) (s : Store)
    (h : keysNodup s) : keysNodup (deleteFiles s ps) := by
  induction ps generalizing s with
  | nil => exact h
  | cons p t ih => exact ih (unlinkFS s p) (keysNodup_eraseA s.files p h)

theorem keysNodup_cleanup (s : Store) (projectId : String)
    (h : keysNodup s) : keysNodup (cleanupOldBackups s projectId) := by
  unfold cleanupOldBackups
  cases readdirFS s (backupDirPath s)
  · exact h
  · simp only []
    split
    · exact h
    · exact keysNodup_deleteFiles _ _ h

theorem cleanupOldBackups_dirs (s : Store) (projectId : String) :
    (cleanupOldBackups s projectId).dirs = s.dirs := by
  unfold cleanupOldBackups
  cases readdirFS s (backupDirPath s)
  · rfl
  · simp only []
    split
    · rfl
    · exact deleteFiles_dirs _ _

theorem keysNodup_projectExists (s : Store) (projectId : String) (now : Nat)
    (h : keysNodup s) : keysNodup (projectExists s projectId now).2 := by
  unfold projectExists
  cases lookupA s.projectsIndex projectId
  · exact h
  · simp only []
    split
    · exact h
    · exact keysNodup_writeJson _ _ _ _ h

theorem backupNamesFor_eq_of_mem (s : Store) (pid : String)
    (hd : backupDirPath s ∈ s.dirs) :
    backupNamesFor s pid = (dirChildren s.files (backupDirPath s)).filter (backupMatches pid) := by
  unfold backupNamesFor readdirFS
  rw [if_pos hd]

theorem backupNamesFor_eq_of_not_mem (s : Store) (pid : String)
    (hd : backupDirPath s ∉ s.dirs) :
    backupNamesFor s pid = [] := by
  unfold backupNamesFor readdirFS
  rw [if_neg hd]

theorem backupNamesFor_ext (s t : Store) (pid : String)
    (hsd : t.stateDir = s.stateDir)
    (hmem : backupDirPath s ∈ t.dirs ↔ backupDirPath s ∈ s.dirs)
    (hch : dirChildren t.files (backupDirPath s) = dirChildren s.files (backupDirPath s)) :
    backupNamesFor t pid = backupNamesFor s pid := by
  have hbd : backupDirPath t = backupDirPath s := by
    unfold backupDirPath
    rw [hsd]
  by_cases h : backupDirPath s ∈ s.dirs
  · rw [backupNamesFor_eq_of_mem s pid h,
      backupNamesFor_eq_of_mem t pid (by rw [hbd]; exact hmem.mpr h), hbd, hch]
  · rw [backupNamesFor_eq_of_not_mem s pid h,
      backupNamesFor_eq_of_not_mem t pid (by rw [hbd]; exact fun hc => h (hmem.mp hc))]

theorem bdirOK_ext (s t : Store)
    (hsd : t.stateDir = s.stateDir)
    (hmem : backupDirPath s ∈ t.dirs ↔ backupDirPath s ∈ s.dirs)
    (hch : dirChildren t.files (backupDirPath s) = dirChildren s.files (backupDirPath s))
    (h : bdirOK s) : bdirOK t := by
  have hbd : backupDirPath t = backupDirPath s := by
    unfold backupDirPath
    rw [hsd]
  rcases h with h | h
  · left
    rw [hbd]
    exact hmem.mpr h
  · right
    rw [hbd, hch]
    exact h

theorem backup_inv_writeJson (s : Store) (n : String) (c : FileContent) (now : Nat) :
    (∀ pid, backupNamesFor (writeJsonFS s (s.stateDir ++ [n]) c now) pid =
      backupNamesFor s pid) ∧
    (bdirOK s → bdirOK (writeJsonFS s (s.stateDir ++ [n]) c now)) := by
  have hsd : (writeJsonFS s (s.stateDir ++ [n]) c now).stateDir = s.stateDir :=
    writeJsonFS_stateDir _ _ _ _
  have hmem : backupDirPath s ∈ (writeJsonFS s (s.stateDir ++ [n]) c now).dirs ↔
      backupDirPath s ∈ s.dirs := by
    rw [writeJsonFS_dirs, dropLast_append_singleton]
    exact mem_ensureDirFS_dirs s s.stateDir (backupDirPath s) (bdirPath_ne_stateDir s)
  have hch : dirChildren (writeJsonFS s (s.stateDir ++ [n]) c now).files (backupDirPath s) =
      dirChildren s.files (backupDirPath s) := by
    rw [writeJsonFS_files]
    exact dirChildren_setA_none _ _ _ _ (childNameOf_sibling s.stateDir n "backups")
  exact ⟨fun pid => backupNamesFor_ext s _ pid hsd hmem hch, bdirOK_ext s _ hsd hmem hch⟩

theorem backup_inv_saveIndex (s : Store) (now : Nat) :
    (∀ pid, backupNamesFor (saveProjectsIndexFS s now) pid = backupNamesFor s pid) ∧
    (bdirOK s → bdirOK (saveProjectsIndexFS s now)) :=
  backup_inv_writeJson s "projects.json" (FileContent.indexFile s.projectsIndex) now

theorem backupNamesFor_withIndex (s : Store) (idx : List (String × FsPath)) (pid : String) :
    backupNamesFor ({ s with projectsIndex := idx } : Store) pid = backupNamesFor s pid := rfl

theorem bdirOK_withIndex (s : Store) (idx : List (String × FsPath)) :
    bdirOK ({ s with projectsIndex := idx } : Store) ↔ bdirOK s := Iff.rfl

theorem backup_inv_projectExists (s : Store) (projectId : String) (now : Nat) :
    (∀ pid, backupNamesFor (projectExists s projectId now).2 pid = backupNamesFor s pid) ∧
    (bdirOK s → bdirOK (projectExists s projectId now).2) := by
  unfold projectExists
  cases lookupA s.projectsIndex projectId
  · exact ⟨fun _ => rfl, id⟩
  · simp only []
    split
    · exact ⟨fun _ => rfl, id⟩
    · constructor
      · intro pid
        rw [(backup_inv_saveIndex _ now).1 pid]
        exact backupNamesFor_withIndex s _ pid
      · intro h
        exact (backup_inv_saveIndex _ now).2 ((bdirOK_withIndex s _).mpr h)

theorem backupDirPath_ensureDir_self (s : Store) :
    backupDirPath (ensureDirFS s (backupDirPath s)) = backupDirPath s := by
  unfold backupDirPath
  rw [ensureDirFS_stateDir]

theorem backupNames_ensureDir_self (s : Store) (pid : String) (hok : bdirOK s) :
    backupNamesFor (ensureDirFS s (backupDirPath s)) pid = backupNamesFor s pid := by
  by_cases hd : backupDirPath s ∈ s.dirs
  · rw [ensureDirFS_of_mem s _ hd]
  · have hch : dirChildren s.files (backupDirPath s) = [] := hok.resolve_left hd
    rw [backupNamesFor_eq_of_not_mem s pid hd,
      backupNamesFor_eq_of_mem _ pid
        (by rw [backupDirPath_ensureDir_self]; exact mem_ensureDirFS_self s _),
      backupDirPath_ensureDir_self, ensureDirFS_files, hch]
    rfl

theorem backupNames_rawWrite_backup (s1 : Store) (bname : String) (c : FileContent)
    (now : Nat) (pid : String) :
    (backupNamesFor (rawWriteFS s1 (backupFilePath s1 bname) c now) pid).length ≤
      (backupNamesFor s1 pid).length + 1 := by
  have hbd : backupDirPath (rawWriteFS s1 (backupFilePath s1 bname) c now) =
      backupDirPath s1 := rfl
  have hdirs : (rawWriteFS s1 (backupFilePath s1 bname) c now).dirs = s1.dirs := rfl
  have hfiles : (rawWriteFS s1 (backupFilePath s1 bname) c now).files =
      setA s1.files (backupFilePath s1 bname) ⟨c, now⟩ := rfl
  by_cases hd : backupDirPath s1 ∈ s1.dirs
  · rw [backupNamesFor_eq_of_mem _ pid (by rw [hbd, hdirs]; exact hd),
      backupNamesFor_eq_of_mem s1 pid hd, hbd, hfiles]
    rcases dirChildren_setA s1.files (backupFilePath s1 bname) ⟨c, now⟩
        (backupDirPath s1) with h | ⟨n, hn, h⟩
    · rw [h]
      omega
    · rw [h, List.filter_append, List.length_append, List.filter_singleton]
      cases backupMatches pid n <;> simp
  · rw [backupNamesFor_eq_of_not_mem _ pid (by rw [hbd, hdirs]; exact hd)]
    simp

theorem backup_bound_writeBackup (s1 : Store) (bname pid : String) (c : FileContent)
    (now : Nat) (h1nod : keysNodup s1) (h1mem : backupDirPath s1 ∈ s1.dirs)
    (h1cnt : (backupNamesFor s1 pid).length ≤ 10) :
    (backupNamesFor (cleanupOldBackups
        (rawWriteFS s1 (backupFilePath s1 bname) c now) pid) pid).length ≤ 10 ∧
    bdirOK (cleanupOldBackups (rawWriteFS s1 (backupFilePath s1 bname) c now) pid) ∧
    keysNodup (cleanupOldBackups (rawWriteFS s1 (backupFilePath s1 bname) c now) pid) := by
  set s2 := rawWriteFS s1 (backupFilePath s1 bname) c now with hs2
  have h2nod : keysNodup s2 := keysNodup_rawWrite _ _ _ _ h1nod
  have h2cnt := backupNames_rawWrite_backup s1 bname c now pid
  have h2mem : backupDirPath s2 ∈ s2.dirs := h1mem
  by_cases h10 : (backupNamesFor s2 pid).length ≤ 10
  · rw [cleanup_no_op s2 pid h10]
    exact ⟨h10, Or.inl h2mem, h2nod⟩
  · have hret := cleanup_retention s2 pid h2nod h2mem (by omega)
    refine ⟨le_of_eq hret.1, ?_, keysNodup_cleanup s2 pid h2nod⟩
    left
    have hcsd : backupDirPath (cleanupOldBackups s2 pid) = backupDirPath s2 := by
      unfold backupDirPath
      rw [cleanupOldBackups_stateDir]
    rw [hcsd, cleanupOldBackups_dirs]
    exact h2mem

theorem backup_bound_createBackup (s : Store) (pid ts : String) (now : Nat)
    (hnod : keysNodup s) (hok : bdirOK s)
    (hcnt : (backupNamesFor s pid).length ≤ 10) :
    (backupNamesFor (createBackup s pid ts now) pid).length ≤ 10 ∧
    bdirOK (createBackup s pid ts now) ∧ keysNodup (createBackup s pid ts now) := by
  have h1nod : keysNodup (ensureDirFS s (backupDirPath s)) := by
    unfold keysNodup
    rw [ensureDirFS_files]
    exact hnod
  have h1cnt : (backupNamesFor (ensureDirFS s (backupDirPath s)) pid).length ≤ 10 := by
    rw [backupNames_ensureDir_self s pid hok]
    exact hcnt
  have h1mem : backupDirPath (ensureDirFS s (backupDirPath s)) ∈
      (ensureDirFS s (backupDirPath s)).dirs := by
    rw [backupDirPath_ensureDir_self]
    exact mem_ensureDirFS_self s _
  unfold createBackup
  cases lookupA s.projectsIndex pid with
  | none => exact ⟨hcnt, hok, hnod⟩
  | some fp =>
    simp only []
    cases hlf : lookupA (ensureDirFS s (backupDirPath s)).files fp with
    | none =>
      refine ⟨?_, Or.inl h1mem, h1nod⟩
      rw [backupNames_ensureDir_self s pid hok]
      exact hcnt
    | some f =>
      have hmem1 : backupDirPath (ensureDirFS s (backupDirPath s)) ∈
          (ensureDirFS s (backupDirPath s)).dirs := h1mem
      exact backup_bound_writeBackup (ensureDirFS s (backupDirPath s))
        (pid ++ "_" ++ ts ++ ".json") pid f.content now h1nod hmem1 h1cnt

theorem backup_bound_savePrelude (s : Store) (pid ts : String) (now : Nat)
    (hnod : keysNodup s) (hok : bdirOK s)
    (hcnt : (backupNamesFor s pid).length ≤ 10) :
    (backupNamesFor (savePrelude s pid ts now) pid).length ≤ 10 ∧
    bdirOK (savePrelude s pid ts now) ∧ keysNodup (savePrelude s pid ts now) := by
  unfold savePrelude
  by_cases hb : s.autoBackup
  · simp only [hb, if_true]
    have hpe := backup_inv_projectExists s pid now
    have hnod2 : keysNodup (projectExists s pid now).2 :=
      keysNodup_projectExists s pid now hnod
    have hok2 : bdirOK (projectExists s pid now).2 := hpe.2 hok
    have hcnt2 : (backupNamesFor (projectExists s pid now).2 pid).length ≤ 10 := by
      rw [hpe.1 pid]
      exact hcnt
    split
    · exact backup_bound_createBackup _ pid ts now hnod2 hok2 hcnt2
    · exact ⟨hcnt2, hok2, hnod2⟩
  · have hb2 : s.autoBackup = false := by
      simpa using hb
    rw [hb2]
    exact ⟨hcnt, hok, hnod⟩

theorem backup_bound_save (s : Store) (proj : ProjectState) (ts : String) (now : Nat)
    (hnod : keysNodup s) (hok : bdirOK s)
    (hcnt : (backupNamesFor s proj.id).length ≤ 10) :
    (backupNamesFor (saveProjectState s proj ts now) proj.id).length ≤ 10 ∧
    bdirOK (saveProjectState s proj ts now) ∧ keysNodup (saveProjectState s proj ts now) := by
  obtain ⟨h2cnt, h2ok, h2nod⟩ := backup_bound_savePrelude s proj.id ts now hnod hok hcnt
  have hrp : recordPath s proj.id =
      (savePrelude s proj.id ts now).stateDir ++ [proj.id ++ ".json"] := by
    rw [savePrelude_stateDir]
    rfl
  have hw := backup_inv_writeJson (savePrelude s proj.id ts now)
    (proj.id ++ ".json") (FileContent.projFile proj) now
  have h3cnt : (backupNamesFor (writeJsonFS (savePrelude s proj.id ts now)
      (recordPath s proj.id) (FileContent.projFile proj) now) proj.id).length ≤ 10 := by
    rw [hrp, hw.1 proj.id]
    exact h2cnt
  have h3ok : bdirOK (writeJsonFS (savePrelude s proj.id ts now)
      (recordPath s proj.id) (FileContent.projFile proj) now) := by
    rw [hrp]
    exact hw.2 h2ok
  have h3nod : keysNodup (writeJsonFS (savePrelude s proj.id ts now)
      (recordPath s proj.id) (FileContent.projFile proj) now) :=
    keysNodup_writeJson _ _ _ _ h2nod
  show (backupNamesFor (saveProjectsIndexFS
    { writeJsonFS (savePrelude s proj.id ts now) (recordPath s proj.id)
        (FileContent.projFile proj) now with
      projectsIndex := setA (writeJsonFS (savePrelude s proj.id ts now)
        (recordPath s proj.id) (FileContent.projFile proj) now).projectsIndex
        proj.id (recordPath s proj.id) } now) proj.id).length ≤ 10 ∧ _ ∧ _
  have hsi := backup_inv_saveIndex
    ({ writeJsonFS (savePrelude s proj.id ts now) (recordPath s proj.id)
        (FileContent.projFile proj) now with
      projectsIndex := setA (writeJsonFS (savePrelude s proj.id ts now)
        (recordPath s proj.id) (FileContent.projFile proj) now).projectsIndex
        proj.id (recordPath s proj.id) } : Store) now
  refine ⟨?_, ?_, ?_⟩
  · rw [hsi.1 proj.id, backupNamesFor_withIndex]
    exact h3cnt
  · exact hsi.2 ((bdirOK_withIndex _ _).mpr h3ok)
  · exact keysNodup_writeJson _ _ _ _ h3nod

theorem backup_bound_seq (saves : List (ProjectState × String × Nat)) (s : Store)
    (pid : String) (hnod : keysNodup s) (hok : bdirOK s)
    (hcnt : (backupNamesFor s pid).length ≤ 10)
    (hids : ∀ x ∈ saves, x.1.id = pid) :
    (backupNamesFor (saves.foldl
      (fun st x => saveProjectState st x.1 x.2.1 x.2.2) s) pid).length ≤ 10 := by
  induction saves generalizing s with
  | nil => exact hcnt
  | cons x rest ih =>
    have hid : x.1.id = pid := hids x (List.mem_cons_self x rest)
    have hb := backup_bound_save s x.1 x.2.1 x.2.2 hnod hok (by rw [hid]; exact hcnt)
    rw [List.foldl_cons]
    exact ih (saveProjectState s x.1 x.2.1 x.2.2) hb.2.2 hb.2.1
      (by rw [← hid]; exact hb.1)
      (fun y hy => hids y (List.mem_cons_of_mem x hy))

/-- Store holding eleven backup files for p1 with distinct mtimes 0..10. -/
def storeB11 : Store :=
  ⟨["st"], [["st"], ["st", "backups"]],
   [(["st", "backups", "p1_00.json"], ⟨FileContent.corrupt, 0⟩),
   (["st", "backups", "p1_01.json"], ⟨FileContent.corrupt, 1⟩),
   (["st", "backups", "p1_02.json"], ⟨FileContent.corrupt, 2⟩),
   (["st", "backups", "p1_03.json"], ⟨FileContent.corrupt, 3⟩),
   (["st", "backups", "p1_04.json"], ⟨FileContent.corrupt, 4⟩),
   (["st", "backups", "p1_05.json"], ⟨FileContent.corrupt, 5⟩),
   (["st", "backups", "p1_06.json"], ⟨FileContent.corrupt, 6⟩),
   (["st", "backups", "p1_07.json"], ⟨FileContent.corrupt, 7⟩),
   (["st", "backups", "p1_08.json"], ⟨FileContent.corrupt, 8⟩),
   (["st", "backups", "p1_09.json"], ⟨FileContent.corrupt, 9⟩),
   (["st", "backups", "p1_10.json"], ⟨FileContent.corrupt, 10⟩)],
   [], true⟩

/-- Fresh store with auto-backup enabled and no files at all. -/
def storeB0 : Store := ⟨["st"], [["st"]], [], [], true⟩

/-- C6: backup retention.  (i) When more than 10 backup files exist for a
project id, cleanupOldBackups leaves exactly 10 of them, all drawn from the
pre-existing ones, and every deleted backup has a modification time at most
that of every survivor - the oldest are deleted and the 10 most recent by
mtime are kept.  (ii) Consequently, starting from any well-formed store
holding at most 10 backups for an id, after any sequence of saveProjectState
calls for that id (auto-backup on or off) at most 10 backup files exist for
that id. -/
theorem backup_retention :
    (∀ (s : Store) (projectId : String), keysNodup s →
      backupDirPath s ∈ s.dirs →
      10 < (backupNamesFor s projectId).length →
      (backupNamesFor (cleanupOldBackups s projectId) projectId).length = 10 ∧
      (∀ kN ∈ backupNamesFor (cleanupOldBackups s projectId) projectId,
        kN ∈ backupNamesFor s projectId) ∧
      (∀ kN ∈ backupNamesFor (cleanupOldBackups s projectId) projectId,
        ∀ dN ∈ backupNamesFor s projectId,
          dN ∉ backupNamesFor (cleanupOldBackups s projectId) projectId →
          ∀ tk td, mtimeOf s kN = some tk → mtimeOf s dN = some td → td ≤ tk)) ∧
    (∀ (saves : List (ProjectState × String × Nat)) (s : Store) (pid : String),
      keysNodup s → bdirOK s →
      (backupNamesFor s pid).length ≤ 10 →
      (∀ x ∈ saves, x.1.id = pid) →
      (backupNamesFor (saves.foldl
        (fun st x => saveProjectState st x.1 x.2.1 x.2.2) s) pid).length ≤ 10) :=
  ⟨cleanup_retention, backup_bound_seq⟩

/-- C6 witness: the retention theorem applied to a store with eleven
backups for p1, and the save-sequence bound applied to two consecutive
saves of baseProject on a fresh store. -/
theorem backup_retention_witness :
    ((backupNamesFor (cleanupOldBackups storeB11 "p1") "p1").length = 10 ∧
      (∀ kN ∈ backupNamesFor (cleanupOldBackups storeB11 "p1") "p1",
        kN ∈ backupNamesFor storeB11 "p1") ∧
      (∀ kN ∈ backupNamesFor (cleanupOldBackups storeB11 "p1") "p1",
        ∀ dN ∈ backupNamesFor storeB11 "p1",
          dN ∉ backupNamesFor (cleanupOldBackups storeB11 "p1") "p1" →
          ∀ tk td, mtimeOf storeB11 kN = some tk → mtimeOf storeB11 dN = some td →
            td ≤ tk)) ∧
    (backupNamesFor ([(baseProject, "t1", 1), (baseProject, "t2", 2)].foldl
      (fun st x => saveProjectState st x.1 x.2.1 x.2.2) storeB0) "p1").length ≤ 10 :=
  ⟨backup_retention.1 storeB11 "p1" (by decide) (by decide) (by decide),
   backup_retention.2 [(baseProject, "t1", 1), (baseProject, "t2", 2)] storeB0 "p1"
     (by decide) (by decide) (by decide) (by decide)⟩

end DevFlow
